import Mathlib

/-!
Verification development for the `model-redis` Table engine
(`src/redis_model.js` with `object_validate` and the redis client mock).

The engine is a schema-enforced object mapper over a string-valued
key/value + set store.  We shallowly embed:

* JavaScript runtime values that can live on a model instance
  (`Value`), with JS strict equality (`===`), truthiness, and string
  interpolation semantics made explicit;
* the in-memory store exactly as implemented by the repository's
  `MockRedisClient` (hashes and sets as insertion-ordered association
  lists);
* the `object_validate` coercion layer.  Its source file is absent from
  the repository snapshot (only its tests and callers are present), so
  those definitions are modelled from the spec and marked as such;
* the `Table` engine of `src/redis_model.js`: `get`, `buildRelations`,
  `listDetail`/`findall`, `create`, `update`, `exists`, and the
  `QueryHelper` cycle guard.  Recursion through relations is embedded
  with a fuel parameter (`mkOps`); `none` denotes a computation that
  did not finish within the given recursion depth.
-/

set_option autoImplicit false

namespace ModelRedis

/-- A JSON document, as produced/consumed by `JSON.stringify`/`JSON.parse`
for the `object` field type.  Numbers are embedded as integers. -/
inductive Json where
  | null : Json
  | bool (b : Bool) : Json
  | num (n : Int) : Json
  | str (s : String) : Json
  | arr (elems : List Json) : Json
  | obj (fields : List (String × Json)) : Json

/-- A JavaScript runtime value that can appear as a model attribute or a
store input.  `vObj` carries the JSON document a parsed object denotes. -/
inductive Value where
  | vStr (s : String) : Value
  | vNum (n : Int) : Value
  | vBool (b : Bool) : Value
  | vObj (j : Json) : Value
  | vNull : Value
  | vUndefined : Value

/-- Decimal digits of `n`, most significant first (`String(n)` for a
natural number).  Uses Mathlib's little-endian `Nat.digits`. -/
def natChars (n : Nat) : List Char :=
  if n = 0 then ['0'] else ((Nat.digits 10 n).reverse.map Nat.digitChar)

/-- `String(n)` for an integer. -/
def intChars (n : Int) : List Char :=
  if n < 0 then '-' :: natChars n.natAbs else natChars n.natAbs

/-- JSON string-body escaping: quote and backslash are escaped. -/
def escapeChars : List Char → List Char
  | [] => []
  | c :: cs =>
    if c = '"' ∨ c = '\\' then '\\' :: c :: escapeChars cs
    else c :: escapeChars cs

/-- The rendered `null` literal. -/
def nullChars : List Char := ['n', 'u', 'l', 'l']

/-- The rendered `true` literal. -/
def trueChars : List Char := ['t', 'r', 'u', 'e']

/-- The rendered `false` literal. -/
def falseChars : List Char := ['f', 'a', 'l', 's', 'e']

mutual

/-- `JSON.stringify` on a `Json` document, as a character list. -/
def Json.renderChars : Json → List Char
  | .null => nullChars
  | .bool true => trueChars
  | .bool false => falseChars
  | .num n => intChars n
  | .str s => '"' :: (escapeChars s.data ++ ['"'])
  | .arr elems => '[' :: (Json.renderList elems ++ [']'])
  | .obj fields => '{' :: (Json.renderFields fields ++ ['}'])

/-- Comma-separated rendering of array elements. -/
def Json.renderList : List Json → List Char
  | [] => []
  | [j] => j.renderChars
  | j :: rest => j.renderChars ++ ',' :: Json.renderList rest

/-- Comma-separated rendering of object members. -/
def Json.renderFields : List (String × Json) → List Char
  | [] => []
  | [(k, j)] => '"' :: (escapeChars k.data ++ '"' :: ':' :: j.renderChars)
  | (k, j) :: rest =>
    '"' :: (escapeChars k.data ++ '"' :: ':' :: j.renderChars) ++
      ',' :: Json.renderFields rest

end

/-- `JSON.stringify` as a `String`. -/
def Json.render (j : Json) : String := ⟨j.renderChars⟩

/-- Numeric value of a digit character. -/
def charVal (c : Char) : Nat := c.toNat - '0'.toNat

/-- Splits a leading run of decimal digits off a character list. -/
def takeDigits : List Char → (List Char × List Char)
  | [] => ([], [])
  | c :: cs =>
    if c.isDigit then
      let (ds, rest) := takeDigits cs
      (c :: ds, rest)
    else ([], c :: cs)

/-- Value of a big-endian digit list. -/
def charsToNat (ds : List Char) : Nat :=
  ds.foldl (fun acc c => 10 * acc + charVal c) 0

/-- Parses a leading natural number literal. -/
def parseNat (cs : List Char) : Option (Nat × List Char) :=
  match takeDigits cs with
  | ([], _) => none
  | (ds, rest) => some (charsToNat ds, rest)

/-- Parses a leading integer literal (optional minus sign). -/
def parseInt (cs : List Char) : Option (Int × List Char) :=
  match cs with
  | '-' :: rest => (parseNat rest).map (fun p => (-(p.1 : Int), p.2))
  | _ => (parseNat cs).map (fun p => ((p.1 : Int), p.2))

/-- Parses a JSON string body up to the closing quote, undoing
`escapeChars`. -/
def parseStrBody : List Char → Option (List Char × List Char)
  | [] => none
  | c :: cs =>
    if c = '"' then some ([], cs)
    else if c = '\\' then
      match cs with
      | [] => none
      | c2 :: cs2 => (parseStrBody cs2).map (fun p => (c2 :: p.1, p.2))
    else (parseStrBody cs).map (fun p => (c :: p.1, p.2))

mutual

/-- Fuelled recursive-descent JSON parser, inverse of
`Json.renderChars`.  Returns the parsed document and the unconsumed
input. -/
def parseVal : Nat → List Char → Option (Json × List Char)
  | 0, _ => none
  | _ + 1, [] => none
  | fuel + 1, c :: rest =>
    if c = 'n' then
      match rest with
      | 'u' :: 'l' :: 'l' :: r => some (.null, r)
      | _ => none
    else if c = 't' then
      match rest with
      | 'r' :: 'u' :: 'e' :: r => some (.bool true, r)
      | _ => none
    else if c = 'f' then
      match rest with
      | 'a' :: 'l' :: 's' :: 'e' :: r => some (.bool false, r)
      | _ => none
    else if c = '"' then
      (parseStrBody rest).map (fun p => (.str ⟨p.1⟩, p.2))
    else if c = '[' then
      if rest.head? = some ']' then some (.arr [], rest.tail)
      else
        match parseVal fuel rest with
        | none => none
        | some (j, rest1) =>
          match parseArrTail fuel rest1 with
          | none => none
          | some (js, rest2) => some (.arr (j :: js), rest2)
    else if c = '{' then
      if rest.head? = some '}' then some (.obj [], rest.tail)
      else
        match parseMember fuel rest with
        | none => none
        | some (kv, rest1) =>
          match parseObjTail fuel rest1 with
          | none => none
          | some (kvs, rest2) => some (.obj (kv :: kvs), rest2)
    else if c = '-' ∨ c.isDigit then
      (parseInt (c :: rest)).map (fun p => (.num p.1, p.2))
    else none

/-- Parses the `, elem ... ]` tail of a JSON array. -/
def parseArrTail : Nat → List Char → Option (List Json × List Char)
  | 0, _ => none
  | _ + 1, [] => none
  | fuel + 1, c :: rest =>
    if c = ']' then some ([], rest)
    else if c = ',' then
      match parseVal fuel rest with
      | none => none
      | some (j, rest1) =>
        match parseArrTail fuel rest1 with
        | none => none
        | some (js, rest2) => some (j :: js, rest2)
    else none

/-- Parses one `"key": value` member of a JSON object. -/
def parseMember : Nat → List Char → Option ((String × Json) × List Char)
  | 0, _ => none
  | fuel + 1, cs =>
    match cs with
    | '"' :: rest =>
      match parseStrBody rest with
      | some (kcs, ':' :: rest2) =>
        (parseVal fuel rest2).map (fun p => ((⟨kcs⟩, p.1), p.2))
      | _ => none
    | _ => none

/-- Parses the `, member ... }` tail of a JSON object. -/
def parseObjTail : Nat → List Char → Option (List (String × Json) × List Char)
  | 0, _ => none
  | _ + 1, [] => none
  | fuel + 1, c :: rest =>
    if c = '}' then some ([], rest)
    else if c = ',' then
      match parseMember fuel rest with
      | none => none
      | some (kv, rest1) =>
        match parseObjTail fuel rest1 with
        | none => none
        | some (kvs, rest2) => some (kv :: kvs, rest2)
    else none

end

/-- `JSON.parse`: parses a whole string as a JSON document. -/
def Json.parse (s : String) : Option Json :=
  match parseVal (s.data.length + 1) s.data with
  | some (j, []) => some j
  | _ => none

/-- JavaScript strict equality (`===`) on runtime values.  Two object
values are never strictly equal in this embedding: in every code path of
the engine the compared objects come from different allocations (one
parsed from the store, one supplied by the caller), so `===` compares
distinct references. -/
def strictEq : Value → Value → Bool
  | .vStr a, .vStr b => a == b
  | .vNum a, .vNum b => a == b
  | .vBool a, .vBool b => a == b
  | .vNull, .vNull => true
  | .vUndefined, .vUndefined => true
  | .vObj _, .vObj _ => false
  | _, _ => false

/-- JavaScript truthiness of a value. -/
def truthy : Value → Bool
  | .vStr s => s ≠ ""
  | .vNum n => n ≠ 0
  | .vBool b => b
  | .vObj _ => true
  | .vNull => false
  | .vUndefined => false

/-- JavaScript `String(v)` / template-literal interpolation of a value,
used when building store key names. -/
def jsString : Value → String
  | .vStr s => s
  | .vNum n => ⟨intChars n⟩
  | .vBool true => "true"
  | .vBool false => "false"
  | .vNull => "null"
  | .vUndefined => "undefined"
  | .vObj _ => "[object Object]"

/-- Lookup in an insertion-ordered association list (JS object read). -/
def alistGet {α : Type} (l : List (String × α)) (k : String) : Option α :=
  match l.find? (fun p => p.1 == k) with
  | some p => some p.2
  | none => none

/-- JS object write: replaces the value of an existing key in place,
otherwise appends the new key at the end (insertion order). -/
def alistSet {α : Type} : List (String × α) → String → α → List (String × α)
  | [], k, v => [(k, v)]
  | (k', v') :: rest, k, v =>
    if k' == k then (k', v) :: rest else (k', v') :: alistSet rest k v

/-- Removes a key from an association list. -/
def alistDel {α : Type} (l : List (String × α)) (k : String) : List (String × α) :=
  l.filter (fun p => p.1 != k)

/-- The in-memory store of the repository's `MockRedisClient`: `data`
holds the record hashes (field name → wire string), `sets` holds the
member sets (insertion-ordered, duplicate-free by construction). -/
structure Store where
  data : List (String × List (String × String))
  sets : List (String × List Value)

/-- `HGETALL key`: the hash at `key`, or the empty mapping. -/
def Store.hgetall (st : Store) (key : String) : List (String × String) :=
  (alistGet st.data key).getD []

/-- `HSET key field value`. -/
def Store.hset (st : Store) (key field value : String) : Store :=
  { st with data := alistSet st.data key (alistSet (st.hgetall key) field value) }

/-- `SMEMBERS key`: all members of the set at `key`, insertion order. -/
def Store.smembers (st : Store) (key : String) : List Value :=
  (alistGet st.sets key).getD []

/-- `SISMEMBER key member` (JS `Set.has`, reference semantics on
objects, hence `strictEq`). -/
def Store.sismember (st : Store) (key : String) (m : Value) : Bool :=
  (st.smembers key).any (strictEq m)

/-- `SADD key member`: appends the member unless already present. -/
def Store.sadd (st : Store) (key : String) (m : Value) : Store :=
  let cur := st.smembers key
  { st with
    sets := alistSet st.sets key (if cur.any (strictEq m) then cur else cur ++ [m]) }

/-- `SREM key member`. -/
def Store.srem (st : Store) (key : String) (m : Value) : Store :=
  { st with sets := alistSet st.sets key ((st.smembers key).filter (fun x => !strictEq m x)) }

/-- `DEL key`: deletes both the hash and the set stored at `key`. -/
def Store.del (st : Store) (key : String) : Store :=
  { data := alistDel st.data key, sets := alistDel st.sets key }

/-- `RENAME old new` as implemented by the mock client: moves the hash
and the set from `old` to `new`; a missing source is a no-op. -/
def Store.rename (st : Store) (oldKey newKey : String) : Store :=
  let d := match alistGet st.data oldKey with
    | some h => alistDel (alistSet st.data newKey h) oldKey
    | none => st.data
  let s := match alistGet st.sets oldKey with
    | some m => alistDel (alistSet st.sets newKey m) oldKey
    | none => st.sets
  { data := d, sets := s }

/-- A surfaced error: plain value with `name`, `status`, the structured
`keys` payload of `EntryNameUsed`, the per-field message list of
`ObjectValidateError`, and a free-form message. -/
structure Err where
  name : String
  status : Nat
  keys : List (String × String) := []
  msgs : List String := []
  msg : String := ""

/-- The four declarable field types. -/
inductive Ty where
  | string | number | boolean | object
deriving DecidableEq

/-- Relation kind of a field. -/
inductive Rel where
  | one | many
deriving DecidableEq

/-- Declarative description of one schema field (`FieldSpec`). -/
structure FieldSpec where
  type : Option Ty := none
  isRequired : Bool := false
  dflt : Option Value := none
  always : Bool := false
  low : Option Int := none
  high : Option Int := none
  isPrivate : Bool := false
  model : Option String := none
  rel : Option Rel := none
  localKey : Option String := none
  remoteKey : Option String := none

/-- A model: its registered name, key field (`_key`) and field map
(`_keyMap`, insertion-ordered). -/
structure Model where
  name : String
  key : String
  keyMap : List (String × FieldSpec)

/-- The process-wide model registry (`Table.models`). -/
abbrev Registry := List (String × Model)

/-- A schema-typed record: JS object mapping field names to values. -/
abbrev Record := List (String × Value)

namespace objValidate

/-- Modelled from the spec: `parseToString(value)` of the absent
`object_validate` module — numbers and booleans as literal text, objects
and arrays as JSON text, strings unchanged, null and undefined as the
literal sentinel texts. -/
def parseToString : Value → String
  | .vStr s => s
  | .vNum n => ⟨intChars n⟩
  | .vBool true => "true"
  | .vBool false => "false"
  | .vObj j => j.render
  | .vNull => "null"
  | .vUndefined => "undefined"

/-- Modelled from the spec: the wire-decoding of one field of
`parseFromString` — numeric fields are parsed from text, boolean fields
from the `true`/`false` literals, object fields from JSON text;
string-typed and undeclared fields pass through unchanged.  Text that
does not decode at the declared type surfaces as a decode error. -/
def parseField (fs : Option FieldSpec) (s : String) : Except Err Value :=
  match fs with
  | some f =>
    match f.type with
    | some .number =>
      match parseInt s.data with
      | some (n, []) => .ok (.vNum n)
      | _ => .error { name := "SyntaxError", status := 500, msg := s }
    | some .boolean =>
      if s = "true" then .ok (.vBool true)
      else if s = "false" then .ok (.vBool false)
      else .error { name := "SyntaxError", status := 500, msg := s }
    | some .object =>
      match Json.parse s with
      | some j => .ok (.vObj j)
      | none => .error { name := "SyntaxError", status := 500, msg := s }
    | _ => .ok (.vStr s)
  | none => .ok (.vStr s)

/-- Modelled from the spec: `parseFromString(schema, record)` of the
absent `object_validate` module, decoding every field of a wire record
by its declared type. -/
def parseFromString (schema : List (String × FieldSpec)) :
    List (String × String) → Except Err Record
  | [] => .ok []
  | (k, s) :: rest =>
    match parseField (alistGet schema k) s with
    | .error e => .error e
    | .ok v =>
      match parseFromString schema rest with
      | .error e => .error e
      | .ok r => .ok ((k, v) :: r)

/-- Does a present value conform to the declared type? -/
def typeOk (t : Option Ty) (v : Value) : Bool :=
  match t, v with
  | some .string, .vStr _ => true
  | some .number, .vNum _ => true
  | some .boolean, .vBool _ => true
  | some .object, .vObj _ => true
  | some _, _ => false
  | none, _ => true

/-- Min/max bound check: string length or numeric value. -/
def boundsOk (fs : FieldSpec) (v : Value) : Bool :=
  let measure : Option Int :=
    match v with
    | .vStr s => some (s.length : Int)
    | .vNum n => some n
    | _ => none
  match measure with
  | none => true
  | some m =>
    (match fs.low with | some lo => lo ≤ m | none => true) &&
    (match fs.high with | some hi => m ≤ hi | none => true)

/-- Modelled from the spec: the per-field step of `processKeys`.
Returns the validated value to write (`some`), nothing to write
(`none`), or the field's error message. -/
def processField (pMode : Bool) (data : Record) (k : String) (fs : FieldSpec) :
    Except String (Option Value) :=
  match alistGet data k with
  | some v =>
    if typeOk fs.type v && boundsOk fs v then .ok (some v)
    else .error (k ++ " is invalid")
  | none =>
    if pMode && !fs.always then .ok none
    else if fs.isRequired && !pMode then .error (k ++ " is required")
    else match fs.dflt with
      | some d => .ok (some d)
      | none => .ok none

/-- Modelled from the spec: `processKeys(schema, data, partial)` of the
absent `object_validate` module.  Walks the schema in declaration
order, validating and coercing `data`; undeclared fields are dropped
silently; on failure the error carries the ordered list of every
offending field (`ObjectValidateError`, 422). -/
def processKeys (schema : List (String × FieldSpec)) (data : Record)
    (pMode : Bool) : Except Err Record :=
  let step := schema.map (fun p => (p.1, processField pMode data p.1 p.2))
  let errs := step.filterMap (fun p => match p.2 with
    | .error m => some m
    | .ok _ => none)
  if errs.isEmpty then
    .ok (step.filterMap (fun p => match p.2 with
      | .ok (some v) => some (p.1, v)
      | _ => none))
  else
    .error { name := "ObjectValidateError", status := 422, msgs := errs }

end objValidate

/-- The value occupying the `queryHelper` parameter position at run
time.  JavaScript lets any value flow there: `undefined` (`noneV`), an
actual `QueryHelper` (`qhV`, carrying its visited-name history), or —
through `listDetail`'s `arguments[arguments.length - 1]` forwarding — a
plain options object (`optsV`). -/
inductive HelperV where
  | noneV : HelperV
  | qhV (history : List String) : HelperV
  | optsV (opts : List (String × Value)) : HelperV

/-- `QueryHelper.isNotCycle(modelName, queryHelper)`: anything that is
not a `QueryHelper` instance disables the check; a visited name is a
cycle (skip); otherwise the name is pushed onto the shared history.
The returned helper reflects the in-place mutation. -/
def QueryHelper.isNotCycle (modelName : String) : HelperV → Bool × HelperV
  | .qhV h =>
    if modelName ∈ h then (false, .qhV h)
    else (true, .qhV (h ++ [modelName]))
  | v => (true, v)

/-- One attribute slot of a loaded instance: a plain value, a resolved
`one` relation, or a resolved `many` relation. -/
inductive Attr where
  | val (v : Value) : Attr
  | one (inst : List (String × Attr)) : Attr
  | many (insts : List (List (String × Attr))) : Attr

/-- A loaded model instance: its attributes in insertion order. -/
abbrev Instance := List (String × Attr)

/-- Reads an attribute as a JS value; a missing attribute reads as
`undefined` and resolved relation objects are opaque non-values. -/
def attrValue (inst : Instance) (k : String) : Value :=
  match alistGet inst k with
  | some (.val v) => v
  | some _ => .vObj (.obj [])
  | none => .vUndefined

/-- `instance[key] === optionValue` for the `listDetail` filter: a
resolved relation attribute is a distinct object reference and never
strictly equal to a caller-supplied filter value. -/
def attrStrictEq (inst : Instance) (k : String) (w : Value) : Bool :=
  match alistGet inst k with
  | some (.val v) => strictEq v w
  | some _ => false
  | none => strictEq .vUndefined w

/-- The filter loop body of `listDetail`: starting from `c` matched
pairs out of `total`, scan the remaining options; push (return `true`)
the moment the incremented match count reaches `total`. -/
def matchCountLoop (inst : Instance) (total : Nat) :
    List (String × Value) → Nat → Bool
  | [], _ => false
  | (k, w) :: rest, c =>
    if attrStrictEq inst k w then
      if c + 1 = total then true else matchCountLoop inst total rest (c + 1)
    else matchCountLoop inst total rest c

/-- Does `listDetail` push this instance?  Without options every
instance is pushed; with options the literal match-count loop decides. -/
def pushDecision (opts : Option (List (String × Value))) (inst : Instance) : Bool :=
  match opts with
  | none => true
  | some fs => matchCountLoop inst fs.length fs 0

/-- The pair of fuelled engine operations: `get` resolves one instance,
`listD` is `listDetail`.  Results thread the (mutable, shared)
`QueryHelper` value; `none` means the computation did not finish within
the available recursion depth. -/
structure Ops where
  get : Model → Value → HelperV → Option (Except Err Instance × HelperV)
  listD : Model → Option (List (String × Value)) → HelperV →
    Option (Except Err (List Instance) × HelperV)

/-- The `EntryNotFound` error raised by `Table.get`. -/
def entryNotFound (m : Model) (index : Value) : Err :=
  { name := "EntryNotFound", status := 404,
    msg := m.name ++ ":" ++ jsString index ++ " does not exists" }

/-- The `EntryNameUsed` error raised by `Table.create` and
`Table.update`. -/
def entryNameUsed (m : Model) (kv : Value) : Err :=
  { name := "EntryNameUsed", status := 409,
    msg := m.name ++ ":" ++ jsString kv ++ " already exists",
    keys := [(m.key, m.name ++ ":" ++ jsString kv ++ " already exists")] }

/-- `Table.buildRelations`: walks the field map; for each field carrying
`model`, looks the target up in the registry (an unregistered target
throws inside the `try` and is swallowed), runs the cycle guard, then
resolves `one` via the target's `get` and `many` via the target's
`listDetail`, forwarding the shared helper; any error is swallowed and
the field is left untouched. -/
def buildRelationsFields (reg : Registry) (ops : Ops) (ownerKey : String) :
    List (String × FieldSpec) → Instance → HelperV → Option (Instance × HelperV)
  | [], inst, h => some (inst, h)
  | (k, fs) :: rest, inst, h =>
    match fs.model with
    | none => buildRelationsFields reg ops ownerKey rest inst h
    | some mname =>
      match alistGet reg mname with
      | none => buildRelationsFields reg ops ownerKey rest inst h
      | some rm =>
        let (go, h') := QueryHelper.isNotCycle rm.name h
        if !go then buildRelationsFields reg ops ownerKey rest inst h'
        else
          match fs.rel with
          | some .one =>
            let own := attrValue inst k
            let idx := if truthy own then own
              else attrValue inst (fs.localKey.getD ownerKey)
            match ops.get rm idx h' with
            | none => none
            | some (.error _, h'') => buildRelationsFields reg ops ownerKey rest inst h''
            | some (.ok child, h'') =>
              buildRelationsFields reg ops ownerKey rest (alistSet inst k (.one child)) h''
          | some .many =>
            match ops.listD rm
              (some [(fs.remoteKey.getD "undefined",
                attrValue inst (fs.localKey.getD ownerKey))]) h' with
            | none => none
            | some (.error _, h'') => buildRelationsFields reg ops ownerKey rest inst h''
            | some (.ok children, h'') =>
              buildRelationsFields reg ops ownerKey rest (alistSet inst k (.many children)) h''
          | none => buildRelationsFields reg ops ownerKey rest inst h'

/-- One level of `Table.get(index, queryHelper)`: reads the record
hash, raises `EntryNotFound` on an absent/empty hash, decodes the wire
strings, constructs the instance, and resolves relations.  When no
helper was supplied, `buildRelations` creates a fresh `QueryHelper`
seeded with the model's own name; that object is local to this call, so
the caller's helper position stays `undefined`. -/
def getImpl (reg : Registry) (pre : String) (st : Store) (ops : Ops)
    (m : Model) (index : Value) (arg : HelperV) :
    Option (Except Err Instance × HelperV) :=
  let result := st.hgetall (pre ++ m.name ++ "_" ++ jsString index)
  if result.isEmpty then some (.error (entryNotFound m index), arg)
  else
    match objValidate.parseFromString m.keyMap result with
    | .error e => some (.error e, arg)
    | .ok rec =>
      let inst : Instance := rec.map (fun p => (p.1, .val p.2))
      let h0 := match arg with
        | .noneV => HelperV.qhV [m.name]
        | x => x
      match buildRelationsFields reg ops m.key m.keyMap inst h0 with
      | none => none
      | some (inst', h') =>
        some (.ok inst', match arg with | .noneV => .noneV | _ => h')

/-- The member loop of `Table.listDetail`: each member key is loaded
via `get` — forwarding whatever occupies the last-argument position —
and pushed according to the filter; a `get` failure propagates. -/
def listLoopAux (ops : Ops) (m : Model)
    (opts : Option (List (String × Value))) :
    List Value → List Instance → HelperV →
    Option (Except Err (List Instance) × HelperV)
  | [], acc, h => some (.ok acc, h)
  | entry :: rest, acc, h =>
    match ops.get m entry h with
    | none => none
    | some (.error e, h') => some (.error e, h')
    | some (.ok inst, h') =>
      listLoopAux ops m opts rest
        (if pushDecision opts inst then acc ++ [inst] else acc) h'

/-- One level of `Table.listDetail(options, ...)`: lists the member
set, loads every key via `get`, filters in memory. -/
def listImpl (pre : String) (st : Store) (ops : Ops) (m : Model)
    (opts : Option (List (String × Value))) (arg : HelperV) :
    Option (Except Err (List Instance) × HelperV) :=
  listLoopAux ops m opts (st.smembers (pre ++ m.name)) [] arg

/-- Ties the recursive knot by fuel: both operations at depth `n + 1`
resolve their nested relation loads with the depth-`n` operations. -/
def mkOps (reg : Registry) (pre : String) (st : Store) : Nat → Ops
  | 0 => ⟨fun _ _ _ => none, fun _ _ _ => none⟩
  | n + 1 =>
    let prev := mkOps reg pre st n
    ⟨getImpl reg pre st prev, listImpl pre st prev⟩

namespace Table

/-- `Table.get(index)` with no helper supplied. -/
def get (reg : Registry) (pre : String) (st : Store) (fuel : Nat)
    (m : Model) (index : Value) : Option (Except Err Instance × HelperV) :=
  (mkOps reg pre st fuel).get m index .noneV

/-- `Table.get(index, queryHelper)` with an explicit helper. -/
def getWith (reg : Registry) (pre : String) (st : Store) (fuel : Nat)
    (m : Model) (index : Value) (arg : HelperV) :
    Option (Except Err Instance × HelperV) :=
  (mkOps reg pre st fuel).get m index arg

/-- `Table.listDetail()` called with no arguments:
`arguments[arguments.length - 1]` is `undefined`, so each member load
gets no helper. -/
def listDetail (reg : Registry) (pre : String) (st : Store) (fuel : Nat)
    (m : Model) : Option (Except Err (List Instance) × HelperV) :=
  (mkOps reg pre st fuel).listD m none .noneV

/-- `Table.listDetail(options)` called with one argument: the last
argument is the options object itself, which is forwarded to every
member `get` in the helper position. -/
def listDetailOpts (reg : Registry) (pre : String) (st : Store) (fuel : Nat)
    (m : Model) (opts : List (String × Value)) :
    Option (Except Err (List Instance) × HelperV) :=
  (mkOps reg pre st fuel).listD m (some opts) (.optsV opts)

/-- `Table.listDetail(options, queryHelper)` called with two arguments. -/
def listDetailWith (reg : Registry) (pre : String) (st : Store) (fuel : Nat)
    (m : Model) (opts : List (String × Value)) (arg : HelperV) :
    Option (Except Err (List Instance) × HelperV) :=
  (mkOps reg pre st fuel).listD m (some opts) arg

/-- `Table.findall(...args)` delegates to `listDetail(...args)`. -/
def findall (reg : Registry) (pre : String) (st : Store) (fuel : Nat)
    (m : Model) (opts : List (String × Value)) :
    Option (Except Err (List Instance) × HelperV) :=
  listDetailOpts reg pre st fuel m opts

/-- `Table.exists(index)`: set-membership test on the primary-key
member set (the object form of `index` has its key field extracted
before the test, which callers inside the engine already do). -/
def existsIndex (pre : String) (st : Store) (m : Model) (index : Value) : Bool :=
  st.sismember (pre ++ m.name) index

/-- `Table.list()`: all member keys of the model. -/
def list (pre : String) (st : Store) (m : Model) : List Value :=
  st.smembers (pre ++ m.name)

/-- `Table.create(data)`: validates (`partial = false`); refuses an
already-used truthy key value with `EntryNameUsed`; otherwise adds the
key to the member set, writes every defined field as a wire string, and
reloads the created entry through `get` (with no helper). -/
def create (reg : Registry) (pre : String) (st : Store) (fuel : Nat)
    (m : Model) (data : Record) : Option (Except Err Instance × Store) :=
  match objValidate.processKeys m.keyMap data false with
  | .error e => some (.error e, st)
  | .ok d =>
    let kv := (alistGet d m.key).getD .vUndefined
    if truthy kv && existsIndex pre st m kv then
      some (.error (entryNameUsed m kv), st)
    else
      let st1 := st.sadd (pre ++ m.name) kv
      let st2 := d.foldl (fun s p =>
        if strictEq p.2 .vUndefined then s
        else s.hset (pre ++ m.name ++ "_" ++ jsString kv) p.1
          (objValidate.parseToString p.2)) st1
      match get reg pre st2 fuel m kv with
      | none => none
      | some (.error e, _) => some (.error e, st2)
      | some (.ok inst, _) => some (.ok inst, st2)

/-- The field-assignment loop of `Table.update`: each validated field
is copied onto the instance and written to the hash keyed by the
instance's *current* key-field value — which the loop itself may have
just changed. -/
def updateLoop (pre : String) (m : Model) :
    Record → Instance → Store → Instance × Store
  | [], self, st => (self, st)
  | (k, v) :: rest, self, st =>
    let self' := alistSet self k (.val v)
    let st' := st.hset (pre ++ m.name ++ "_" ++ jsString (attrValue self' m.key))
      k (objValidate.parseToString v)
    updateLoop pre m rest self' st'

/-- `Table.update(data)`: revalidates with `partial = true`; when the
key-field value changes to a truthy new value, checks the new value is
unused, moves the member-set entry, renames the record hash; then
applies every passed field through `updateLoop`. -/
def update (pre : String) (m : Model) (self : Instance) (data : Record)
    (st : Store) : Except Err (Instance × Store) :=
  match objValidate.processKeys m.keyMap data true with
  | .error e => .error e
  | .ok d =>
    let newK := (alistGet d m.key).getD .vUndefined
    let curK := attrValue self m.key
    if truthy newK && !strictEq newK curK then
      if truthy newK && existsIndex pre st m newK then
        .error (entryNameUsed m newK)
      else
        let st1 := (st.srem (pre ++ m.name) curK).sadd (pre ++ m.name) newK
        let st2 := st1.rename (pre ++ m.name ++ "_" ++ jsString curK)
          (pre ++ m.name ++ "_" ++ jsString newK)
        .ok (updateLoop pre m d self st2)
    else
      .ok (updateLoop pre m d self st)

end Table

/-- Spec-side filter predicate: the instance matches every key/value
pair of the options map (`===` on each attribute). -/
def matchesAllPairs (inst : Instance) (opts : List (String × Value)) : Bool :=
  opts.all (fun p => attrStrictEq inst p.1 p.2)

/-- The member loop of `listDetailFresh`. -/
def freshLoop (ops : Ops) (m : Model) (opts : Option (List (String × Value))) :
    List Value → List Instance → Option (Except Err (List Instance))
  | [], acc => some (.ok acc)
  | entry :: rest, acc =>
    match ops.get m entry (.qhV [m.name]) with
    | none => none
    | some (.error e, _) => some (.error e)
    | some (.ok inst, _) =>
      freshLoop ops m opts rest
        (if pushDecision opts inst then acc ++ [inst] else acc)

/-- Modelled from the spec: the behaviour the spec prescribes for a
`listDetail` call without a caller-supplied QueryHelper — every member
is loaded under a freshly created QueryHelper seeded with the root
model's name, so the cycle guard is active.  Used to compare the
engine's actual one-argument `listDetail` against the spec's words. -/
def listDetailFresh (reg : Registry) (pre : String) (st : Store) :
    Nat → Model → Option (List (String × Value)) →
    Option (Except Err (List Instance))
  | 0, _, _ => none
  | n + 1, m, opts =>
    freshLoop (mkOps reg pre st n) m opts (st.smembers (pre ++ m.name)) []

/-- Test fixture: the `TestUser` model of the repository's relationship
tests (`many` relation to `TestPost`). -/
def UserM : Model :=
  { name := "TestUser", key := "id", keyMap := [
      ("id", { type := some .string, isRequired := true }),
      ("name", { type := some .string, isRequired := true }),
      ("posts", { model := some "TestPost", rel := some .many,
                  remoteKey := some "userId", localKey := some "id" })] }

/-- Test fixture: the `TestPost` model (`one` back-reference to
`TestUser`), closing the relation cycle. -/
def PostM : Model :=
  { name := "TestPost", key := "id", keyMap := [
      ("id", { type := some .string, isRequired := true }),
      ("title", { type := some .string, isRequired := true }),
      ("userId", { type := some .string, isRequired := true }),
      ("user", { model := some "TestUser", rel := some .one,
                 localKey := some "userId" })] }

/-- The registry holding the cyclic pair of models. -/
def cycleReg : Registry := [("TestUser", UserM), ("TestPost", PostM)]

/-- A store populated with one user and one related post, as in the
repository's cycle-detection test. -/
def cycleStore : Store :=
  { data := [
      ("TestUser_user1", [("id", "user1"), ("name", "John Doe")]),
      ("TestPost_post1", [("id", "post1"), ("title", "My Post"), ("userId", "user1")])],
    sets := [
      ("TestUser", [.vStr "user1"]),
      ("TestPost", [.vStr "post1"])] }

/-- The post instance as loaded inside a guarded traversal rooted at
the user: its `user` back-reference stays unresolved. -/
def post1Bare : Instance :=
  [("id", .val (.vStr "post1")), ("title", .val (.vStr "My Post")),
   ("userId", .val (.vStr "user1"))]

/-- The fully loaded user instance: `posts` populated with the bare
post child. -/
def user1Loaded : Instance :=
  [("id", .val (.vStr "user1")), ("name", .val (.vStr "John Doe")),
   ("posts", .many [post1Bare])]

/-- Test fixture: a relation-free `User` model. -/
def SimpleM : Model :=
  { name := "User", key := "username", keyMap := [
      ("username", { type := some .string, isRequired := true }),
      ("email", { type := some .string }),
      ("age", { type := some .number })] }

/-- A store holding two `User` entries. -/
def simpleStore : Store :=
  { data := [
      ("User_john", [("username", "john"), ("email", "john@example.com"), ("age", "30")]),
      ("User_jane", [("username", "jane"), ("email", "jane@example.com"), ("age", "25")])],
    sets := [("User", [.vStr "john", .vStr "jane"])] }

/-- The loaded instance for entry `john`. -/
def johnInst : Instance :=
  [("username", .val (.vStr "john")), ("email", .val (.vStr "john@example.com")),
   ("age", .val (.vNum 30))]

/-- The loaded instance for entry `jane`. -/
def janeInst : Instance :=
  [("username", .val (.vStr "jane")), ("email", .val (.vStr "jane@example.com")),
   ("age", .val (.vNum 25))]

/-- A store whose member set already contains the empty-string key (as
left behind by an earlier `create` with an empty key value). -/
def emptyKeyStore : Store :=
  { data := [("User_", [("username", "")])],
    sets := [("User", [.vStr ""])] }

/-- A model whose key field is declared second in the field map. -/
def EUserM : Model :=
  { name := "EUser", key := "username", keyMap := [
      ("email", { type := some .string }),
      ("username", { type := some .string, isRequired := true })] }

/-- A store holding the persisted `EUser` entry `john`. -/
def eStore : Store :=
  { data := [("EUser_john", [("email", "john@example.com"), ("username", "john")])],
    sets := [("EUser", [.vStr "john"])] }

/-- The in-memory instance for `EUser` entry `john`. -/
def eSelf : Instance :=
  [("email", .val (.vStr "john@example.com")), ("username", .val (.vStr "john"))]

/-- A store holding one post whose `userId` points at a user that does
not exist (the "orphaned post" test). -/
def orphanStore : Store :=
  { data := [("TestPost_post1",
      [("id", "post1"), ("title", "Orphaned Post"), ("userId", "ghost")])],
    sets := [("TestPost", [.vStr "post1"])] }

/-- The orphaned post as loaded: its `user` relation stays unset. -/
def orphanInst : Instance :=
  [("id", .val (.vStr "post1")), ("title", .val (.vStr "Orphaned Post")),
   ("userId", .val (.vStr "ghost"))]

/-- A store whose `TestUser` member set lists `user1` and whose
`TestPost` member set lists a post with no record hash, so the `many`
relation load fails internally. -/
def brokenManyStore : Store :=
  { data := [("TestUser_user1", [("id", "user1"), ("name", "John Doe")])],
    sets := [("TestUser", [.vStr "user1"]), ("TestPost", [.vStr "lost"])] }

/-- The `user` relation field spec of `TestPost`. -/
def userRelSpec : FieldSpec :=
  { model := some "TestUser", rel := some .one, localKey := some "userId" }

/-- No leading decimal digit: the boundary condition under which a
rendered number literal can be parsed back unambiguously. -/
def noDigitHead : List Char → Bool
  | [] => true
  | c :: _ => !c.isDigit

/-- Rendering of the `, elem , elem ...` tail of a JSON array (without
the closing bracket). -/
def tailRender : List Json → List Char
  | [] => []
  | y :: ys => ',' :: (Json.renderChars y ++ tailRender ys)

/-- Rendering of one `"key": value` member of a JSON object. -/
def memberRender (k : String) (j : Json) : List Char :=
  '"' :: (escapeChars k.data ++ '"' :: ':' :: j.renderChars)

/-- Rendering of the `, member ...` tail of a JSON object (without the
closing brace). -/
def tailRenderObj : List (String × Json) → List Char
  | [] => []
  | mm :: ms => ',' :: (memberRender mm.1 mm.2 ++ tailRenderObj ms)

mutual

/-- Recursion depth needed by `parseVal` to parse a rendered document. -/
def jsize : Json → Nat
  | .arr xs => 1 + jsizeArr xs
  | .obj ms => 1 + jsizeObj ms
  | _ => 1

/-- Depth needed by `parseArrTail` for a rendered array tail. -/
def jsizeArr : List Json → Nat
  | [] => 1
  | y :: ys => 1 + Nat.max (jsize y) (jsizeArr ys)

/-- Depth needed by `parseObjTail` for a rendered object tail. -/
def jsizeObj : List (String × Json) → Nat
  | [] => 1
  | mm :: ms => 2 + Nat.max (jsize mm.2) (jsizeObj ms)

end

/-- The four declared wire types, as a predicate matching a value. -/
def typeMatches : Ty → Value → Bool
  | .string, .vStr _ => true
  | .number, .vNum _ => true
  | .boolean, .vBool _ => true
  | .object, .vObj _ => true
  | _, _ => false

/-- A record is schema-valid for the round-trip claim: every field is
declared in the schema with one of the four types, and its value
matches the declared type. -/
def RecordValid (schema : List (String × FieldSpec)) (rec : Record) : Prop :=
  ∀ p ∈ rec, ∃ (fs : FieldSpec) (t : Ty),
    alistGet schema p.1 = some fs ∧ fs.type = some t ∧ typeMatches t p.2 = true

/-- Schema fixture for the wire round-trip: one declared field of each
of the four types. -/
def rtSchema : List (String × FieldSpec) :=
  [("name", { type := some .string }),
   ("age", { type := some .number }),
   ("active", { type := some .boolean }),
   ("meta", { type := some .object })]

/-- Record fixture for the wire round-trip, exercising every type
including a nested JSON document. -/
def rtRec : Record :=
  [("name", .vStr "ann"),
   ("age", .vNum 41),
   ("active", .vBool true),
   ("meta", .vObj (.obj [("tags", .arr [.str "a", .num 3]), ("ok", .bool false)]))]

/-- A store with no hashes and no sets. -/
def emptyStore : Store := { data := [], sets := [] }

/-- The store produced by creating the single `User` entry `john` in an
empty store. -/
def johnOnlyStore : Store :=
  { data := [("User_john", [("username", "john")])],
    sets := [("User", [.vStr "john"])] }

end ModelRedis

namespace ModelRedis

theorem strictEq_eq {a b : Value} (h : strictEq a b = true) : a = b := by
  cases a <;> cases b <;> simp_all [strictEq]

@[simp] theorem alistGet_nil {α : Type} (k : String) :
    alistGet ([] : List (String × α)) k = none := rfl

@[simp] theorem alistGet_cons {α : Type} (a : String) (b : α)
    (rest : List (String × α)) (k : String) :
    alistGet ((a, b) :: rest) k = if a = k then some b else alistGet rest k := by
  by_cases h : a = k
  · subst h; simp [alistGet, List.find?]
  · have hb : (a == k) = false := by simp [h]
    simp [alistGet, List.find?, hb, h]

@[simp] theorem alistSet_nil {α : Type} (k : String) (v : α) :
    alistSet ([] : List (String × α)) k v = [(k, v)] := rfl

@[simp] theorem alistSet_cons {α : Type} (a : String) (b : α)
    (rest : List (String × α)) (k : String) (v : α) :
    alistSet ((a, b) :: rest) k v =
      if a = k then (a, v) :: rest else (a, b) :: alistSet rest k v := by
  by_cases h : a = k <;> simp [alistSet, h]

theorem alistGet_set_self {α : Type} (l : List (String × α)) (k : String) (v : α) :
    alistGet (alistSet l k v) k = some v := by
  induction l with
  | nil => simp
  | cons p rest ih =>
    cases p with
    | mk a b =>
      by_cases h : a = k
      · subst h; simp
      · simp [h, ih]

theorem alistGet_set_other {α : Type} (l : List (String × α)) (k k' : String) (v : α)
    (h : k' ≠ k) : alistGet (alistSet l k v) k' = alistGet l k' := by
  induction l with
  | nil =>
    have : ¬k = k' := fun hh => h hh.symm
    simp [this]
  | cons p rest ih =>
    cases p with
    | mk a b =>
      by_cases hak : a = k
      · subst hak
        have : ¬a = k' := fun hh => h hh.symm
        simp [this]
      · simp [hak, ih]

theorem alistGet_mem {α : Type} {l : List (String × α)} {k : String} {v : α}
    (h : alistGet l k = some v) : (k, v) ∈ l := by
  induction l with
  | nil => simp at h
  | cons p rest ih =>
    cases p with
    | mk a b =>
      by_cases ha : a = k
      · subst ha
        simp at h
        simp [h]
      · simp [ha] at h
        exact List.mem_cons_of_mem _ (ih h)

theorem hset_sets (st : Store) (k f v : String) : (st.hset k f v).sets = st.sets := rfl

theorem sadd_data (st : Store) (k : String) (m : Value) : (st.sadd k m).data = st.data := rfl

theorem srem_data (st : Store) (k : String) (m : Value) : (st.srem k m).data = st.data := rfl

theorem hgetall_hset_self (st : Store) (k f v : String) :
    (st.hset k f v).hgetall k = alistSet (st.hgetall k) f v := by
  simp [Store.hset, Store.hgetall, alistGet_set_self]

theorem hgetall_hset_other (st : Store) (k hk f v : String) (h : hk ≠ k) :
    (st.hset k f v).hgetall hk = st.hgetall hk := by
  simp [Store.hset, Store.hgetall, alistGet_set_other _ _ _ _ h]

/-- The push test of `listDetail` under a present-but-empty options
object never fires. -/
theorem pushDecision_empty (inst : Instance) : pushDecision (some []) inst = false := rfl

theorem listLoopAux_empty_opts (ops : Ops) (m : Model) :
    ∀ (ms : List Value) (acc : List Instance) (h : HelperV)
      (l : List Instance) (h' : HelperV),
      listLoopAux ops m (some []) ms acc h = some (.ok l, h') → l = acc := by
  intro ms
  induction ms with
  | nil =>
    intro acc h l h' hyp
    simp [listLoopAux] at hyp
    exact hyp.1.symm
  | cons e rest ih =>
    intro acc h l h' hyp
    simp only [listLoopAux] at hyp
    match hget : ops.get m e h with
    | none => rw [hget] at hyp; simp at hyp
    | some (.error er, h'') => rw [hget] at hyp; simp at hyp
    | some (.ok inst, h'') =>
      rw [hget] at hyp
      simp only [pushDecision_empty, if_neg] at hyp
      exact ih acc h'' l h' (by simpa using hyp)

/-- Claim C10: `listDetail` called with a present but empty options
object returns the empty list whenever it returns at all, regardless of
how many entries the model has stored. -/
theorem listDetail_empty_options_yields_nothing (reg : Registry) (pre : String)
    (st : Store) (fuel : Nat) (m : Model) (l : List Instance) (h : HelperV)
    (hres : Table.listDetailOpts reg pre st fuel m [] = some (.ok l, h)) :
    l = [] := by
  cases fuel with
  | zero => simp [Table.listDetailOpts, mkOps] at hres
  | succ n =>
    simp only [Table.listDetailOpts, mkOps, listImpl] at hres
    exact listLoopAux_empty_opts _ _ _ _ _ _ _ hres

theorem mkOps_zero (reg : Registry) (pre : String) (st : Store) :
    mkOps reg pre st 0 = ⟨fun _ _ _ => none, fun _ _ _ => none⟩ := rfl

theorem mkOps_succ (reg : Registry) (pre : String) (st : Store) (n : Nat) :
    mkOps reg pre st (n + 1) =
      ⟨getImpl reg pre st (mkOps reg pre st n),
       listImpl pre st (mkOps reg pre st n)⟩ := rfl

theorem parseField_error_name {fs : Option FieldSpec} {s : String} {e : Err}
    (h : objValidate.parseField fs s = .error e) : e.name = "SyntaxError" := by
  unfold objValidate.parseField at h
  repeat' split at h
  all_goals injection h
  all_goals rename_i h
  all_goals subst h
  all_goals rfl

theorem parseFromString_error_name {schema : List (String × FieldSpec)}
    {l : List (String × String)} {e : Err}
    (h : objValidate.parseFromString schema l = .error e) : e.name = "SyntaxError" := by
  induction l with
  | nil => simp [objValidate.parseFromString] at h
  | cons p rest ih =>
    cases p with
    | mk k sv =>
      simp only [objValidate.parseFromString] at h
      split at h
      · cases h; exact parseField_error_name (by assumption)
      · split at h
        · cases h; exact ih (by assumption)
        · simp at h

theorem get_error_name {reg : Registry} {pre : String} {st : Store} {fuel : Nat}
    {m : Model} {idx : Value} {e : Err} {h : HelperV}
    (hres : Table.get reg pre st fuel m idx = some (.error e, h)) :
    e.name = "EntryNotFound" ∨ e.name = "SyntaxError" := by
  cases fuel with
  | zero => simp [Table.get, mkOps] at hres
  | succ n =>
    simp only [Table.get, mkOps_succ, getImpl] at hres
    split at hres
    · cases hres
      left
      rfl
    · split at hres
      · cases hres
        right
        exact parseFromString_error_name (by assumption)
      · split at hres
        · simp at hres
        · simp at hres

/-- Claim C8: when `create` fails with a validation error or with
`EntryNameUsed`, the store is unchanged — both checks run before any
set-member or hash-field write. -/
theorem create_failure_leaves_store_unchanged (reg : Registry) (pre : String)
    (st : Store) (fuel : Nat) (m : Model) (data : Record) (e : Err) (st' : Store)
    (hres : Table.create reg pre st fuel m data = some (.error e, st'))
    (hname : e.name = "ObjectValidateError" ∨ e.name = "EntryNameUsed") :
    st' = st := by
  simp only [Table.create] at hres
  split at hres
  · cases hres; rfl
  · split at hres
    · cases hres; rfl
    · split at hres
      · simp at hres
      · rename_i heq
        cases hres
        rcases get_error_name heq with h2 | h2 <;>
          rcases hname with h1 | h1 <;>
          (rw [h1] at h2; exact absurd h2 (by decide))
      · simp at hres

/-- Witness for C8: `create` missing the required key field fails
validation (name `ObjectValidateError`) and the theorem applies,
confirming the store is untouched. -/
theorem create_failure_leaves_store_unchanged_witness :
    Table.create [] "" simpleStore 5 SimpleM [("email", .vStr "x@y")] =
      some (.error (Err.mk "ObjectValidateError" 422 [] ["username is required"] ""),
        simpleStore) ∧ simpleStore = simpleStore :=
  ⟨rfl, create_failure_leaves_store_unchanged [] "" simpleStore 5 SimpleM
    [("email", .vStr "x@y")]
    (Err.mk "ObjectValidateError" 422 [] ["username is required"] "")
    simpleStore rfl (Or.inl rfl)⟩

/-- Counterexample to claim C5 as stated: the empty string is a falsy
key value, so even though it is already a member of the model's member
set and the input is schema-valid, `create` skips the duplicate check
entirely and succeeds instead of failing with `EntryNameUsed`. -/
theorem create_falsy_duplicate_key_not_rejected :
    Store.sismember emptyKeyStore "User" (.vStr "") = true ∧
    (Table.create [] "" emptyKeyStore 5 SimpleM [("username", .vStr "")]).map
      (fun p => match p.1 with | .error e => e.name | .ok _ => "ok") = some "ok" :=
  ⟨rfl, rfl⟩

/-- The per-field hash writes of `create` never touch the member sets. -/
theorem createWrites_sets (pre : String) (m : Model) (kv : Value) (d : Record) :
    ∀ st : Store,
      (d.foldl (fun s p =>
        if strictEq p.2 .vUndefined then s
        else s.hset (pre ++ m.name ++ "_" ++ jsString kv) p.1
          (objValidate.parseToString p.2)) st).sets = st.sets := by
  induction d with
  | nil => intro st; rfl
  | cons p rest ih =>
    intro st
    simp only [List.foldl]
    rw [ih]
    split <;> rfl

/-- `SADD` makes a self-identical value a member. -/
theorem sadd_self_member (st : Store) (k : String) (v : Value)
    (hsq : strictEq v v = true) : (st.sadd k v).sismember k v = true := by
  simp only [Store.sadd, Store.sismember, Store.smembers, alistGet_set_self,
    Option.getD_some]
  split
  · assumption
  · simp [hsq]

/-- Claim C5, amended: `create` on a *truthy* key value that is already
a member fails with `EntryNameUsed` (409, carrying the offending key
and message) without touching the store; and a successful `create` of a
self-identical key value leaves that value a member, so a second
`create` with the same truthy key value fails with `EntryNameUsed`. -/
theorem create_duplicate_truthy_key_conflict :
    (∀ (reg : Registry) (pre : String) (st : Store) (fuel : Nat) (m : Model)
      (data d : Record),
      objValidate.processKeys m.keyMap data false = .ok d →
      truthy ((alistGet d m.key).getD .vUndefined) = true →
      Table.existsIndex pre st m ((alistGet d m.key).getD .vUndefined) = true →
      Table.create reg pre st fuel m data =
        some (.error (entryNameUsed m ((alistGet d m.key).getD .vUndefined)), st)) ∧
    (∀ (reg : Registry) (pre : String) (st : Store) (fuel : Nat) (m : Model)
      (data d : Record) (inst : Instance) (st' : Store),
      objValidate.processKeys m.keyMap data false = .ok d →
      strictEq ((alistGet d m.key).getD .vUndefined)
        ((alistGet d m.key).getD .vUndefined) = true →
      Table.create reg pre st fuel m data = some (.ok inst, st') →
      Table.existsIndex pre st' m ((alistGet d m.key).getD .vUndefined) = true) := by
  constructor
  · intro reg pre st fuel m data d hval htr hex
    simp only [Table.create, hval, htr, hex, Bool.and_self, if_true]
  · intro reg pre st fuel m data d inst st' hval hsq hres
    simp only [Table.create, hval] at hres
    split at hres
    · simp at hres
    · split at hres
      · simp at hres
      · simp at hres
      · rename_i heq
        rw [Option.some_inj] at hres
        cases hres
        simp only [Table.existsIndex, Store.sismember] at *
        have hsets := createWrites_sets pre m ((alistGet d m.key).getD .vUndefined) d
          (st.sadd (pre ++ m.name) ((alistGet d m.key).getD .vUndefined))
        simp only [Store.sismember, Store.smembers] at hsets ⊢
        rw [show ∀ stx : Store, (alistGet stx.sets (pre ++ m.name)).getD [] =
          stx.smembers (pre ++ m.name) from fun _ => rfl]
        rw [show ∀ (stx : Store) (kx : String), stx.smembers kx =
          (alistGet stx.sets kx).getD [] from fun _ _ => rfl, hsets]
        exact sadd_self_member st (pre ++ m.name) _ hsq

/-- Witness for C5: creating `john` in an empty store succeeds and
leaves `john` a member; an identical second `create` fails with
`EntryNameUsed` 409. -/
theorem create_duplicate_truthy_key_conflict_witness :
    Table.create [] "" emptyStore 5 SimpleM [("username", .vStr "john")] =
      some (.ok [("username", .val (.vStr "john"))], johnOnlyStore) ∧
    Table.existsIndex "" johnOnlyStore SimpleM (.vStr "john") = true ∧
    Table.create [] "" johnOnlyStore 5 SimpleM [("username", .vStr "john")] =
      some (.error (entryNameUsed SimpleM (.vStr "john")), johnOnlyStore) ∧
    (entryNameUsed SimpleM (.vStr "john")).status = 409 :=
  ⟨rfl,
   create_duplicate_truthy_key_conflict.2 [] "" emptyStore 5 SimpleM
     [("username", .vStr "john")] [("username", .vStr "john")]
     [("username", .val (.vStr "john"))] johnOnlyStore rfl rfl rfl,
   create_duplicate_truthy_key_conflict.1 [] "" johnOnlyStore 5 SimpleM
     [("username", .vStr "john")] [("username", .vStr "john")] rfl rfl rfl,
   rfl⟩

/-- Claim C7: relation-resolution failures never reach the caller and
leave the relation field untouched.  Part one: the only errors `get`
itself can surface are its own `EntryNotFound` and wire-decoding
errors — nothing thrown while resolving a relation escapes
`buildRelations`.  Parts two and three: when the nested `get` of a
`one` relation or the nested `listDetail` of a `many` relation fails,
the walk continues over the remaining fields with the instance
unchanged, so the field stays unset. -/
theorem relation_errors_swallowed :
    (∀ (reg : Registry) (pre : String) (st : Store) (fuel : Nat) (m : Model)
      (idx : Value) (arg : HelperV) (e : Err) (h' : HelperV),
      Table.getWith reg pre st fuel m idx arg = some (.error e, h') →
      e = entryNotFound m idx ∨ e.name = "SyntaxError") ∧
    (∀ (reg : Registry) (ops : Ops) (ownerKey : String) (k : String)
      (fs : FieldSpec) (rest : List (String × FieldSpec)) (inst : Instance)
      (h h1 h2 : HelperV) (mn : String) (rm : Model) (e : Err),
      fs.model = some mn → alistGet reg mn = some rm →
      QueryHelper.isNotCycle rm.name h = (true, h1) →
      fs.rel = some .one →
      ops.get rm
        (if truthy (attrValue inst k) then attrValue inst k
         else attrValue inst (fs.localKey.getD ownerKey)) h1 = some (.error e, h2) →
      buildRelationsFields reg ops ownerKey ((k, fs) :: rest) inst h =
        buildRelationsFields reg ops ownerKey rest inst h2) ∧
    (∀ (reg : Registry) (ops : Ops) (ownerKey : String) (k : String)
      (fs : FieldSpec) (rest : List (String × FieldSpec)) (inst : Instance)
      (h h1 h2 : HelperV) (mn : String) (rm : Model) (e : Err),
      fs.model = some mn → alistGet reg mn = some rm →
      QueryHelper.isNotCycle rm.name h = (true, h1) →
      fs.rel = some .many →
      ops.listD rm
        (some [(fs.remoteKey.getD "undefined",
          attrValue inst (fs.localKey.getD ownerKey))]) h1 = some (.error e, h2) →
      buildRelationsFields reg ops ownerKey ((k, fs) :: rest) inst h =
        buildRelationsFields reg ops ownerKey rest inst h2) := by
  refine ⟨?_, ?_, ?_⟩
  · intro reg pre st fuel m idx arg e h' hres
    cases fuel with
    | zero => simp [Table.getWith, mkOps] at hres
    | succ n =>
      simp only [Table.getWith, mkOps_succ, getImpl] at hres
      split at hres
      · cases hres
        left
        rfl
      · split at hres
        · cases hres
          right
          exact parseFromString_error_name (by assumption)
        · split at hres
          · simp at hres
          · split at hres <;> simp at hres
  · intro reg ops ownerKey k fs rest inst h h1 h2 mn rm e hmod hreg hcyc hrel hget
    simp only [buildRelationsFields, hmod, hreg, hcyc, hrel, hget,
      Bool.not_true, Bool.false_eq_true, if_false]
  · intro reg ops ownerKey k fs rest inst h h1 h2 mn rm e hmod hreg hcyc hrel hlist
    simp only [buildRelationsFields, hmod, hreg, hcyc, hrel, hlist,
      Bool.not_true, Bool.false_eq_true, if_false]

/-- Witness for C7: the orphaned-post load succeeds with `user` unset;
the not-found error of the nested user `get` is swallowed — and the
broken `many` load leaves `posts` unset on the user while its own `get`
still succeeds. -/
theorem relation_errors_swallowed_witness :
    Table.get cycleReg "" orphanStore 3 PostM (.vStr "post1") =
      some (.ok orphanInst, .noneV) ∧
    alistGet orphanInst "user" = none ∧
    (entryNotFound PostM (.vStr "nope") = entryNotFound PostM (.vStr "nope") ∨
      (entryNotFound PostM (.vStr "nope")).name = "SyntaxError") ∧
    buildRelationsFields cycleReg (mkOps cycleReg "" orphanStore 2) "id"
      [("user", userRelSpec)] orphanInst (.qhV ["TestPost"]) =
      buildRelationsFields cycleReg (mkOps cycleReg "" orphanStore 2) "id"
        [] orphanInst (.qhV ["TestPost", "TestUser"]) ∧
    Table.get cycleReg "" brokenManyStore 3 UserM (.vStr "user1") =
      some (.ok [("id", .val (.vStr "user1")), ("name", .val (.vStr "John Doe"))],
        .noneV) :=
  ⟨rfl, rfl,
   relation_errors_swallowed.1 cycleReg "" orphanStore 2 PostM (.vStr "nope")
     (.qhV ["x"]) (entryNotFound PostM (.vStr "nope")) (.qhV ["x"]) rfl,
   relation_errors_swallowed.2.1 cycleReg (mkOps cycleReg "" orphanStore 2) "id"
     "user" userRelSpec
     [] orphanInst (.qhV ["TestPost"]) (.qhV ["TestPost", "TestUser"])
     (.qhV ["TestPost", "TestUser"]) "TestUser" UserM
     (entryNotFound UserM (.vStr "ghost")) rfl rfl rfl rfl rfl,
   rfl⟩

/-- During the update loop, as long as every occurrence of the key
field in the remaining data carries the current value, all writes hit
the instance's existing record hash: the member sets and every other
hash are untouched. -/
theorem updateLoop_frame (pre : String) (m : Model) (curV : Value) :
    ∀ (d : Record) (self : Instance) (st : Store),
      attrValue self m.key = curV →
      (∀ v, (m.key, v) ∈ d → strictEq v curV = true) →
      (Table.updateLoop pre m d self st).2.sets = st.sets ∧
      (∀ hk, hk ≠ pre ++ m.name ++ "_" ++ jsString curV →
        alistGet (Table.updateLoop pre m d self st).2.data hk = alistGet st.data hk) := by
  intro d
  induction d with
  | nil => intro self st hcur hkeys; exact ⟨rfl, fun _ _ => rfl⟩
  | cons p rest ih =>
    intro self st hcur hkeys
    cases p with
    | mk k v =>
      have hcur' : attrValue (alistSet self k (.val v)) m.key = curV := by
        by_cases hk : k = m.key
        · subst hk
          have hv : v = curV :=
            strictEq_eq (hkeys v (List.mem_cons_self _ _))
          simp [attrValue, alistGet_set_self, hv]
        · have : alistGet (alistSet self k (.val v)) m.key = alistGet self m.key :=
            alistGet_set_other _ _ _ _ (fun hh => hk hh.symm)
          simpa [attrValue, this] using hcur
      have hkeys' : ∀ v', (m.key, v') ∈ rest → strictEq v' curV = true :=
        fun v' hv' => hkeys v' (List.mem_cons_of_mem _ hv')
      simp only [Table.updateLoop, hcur']
      have := ih (alistSet self k (.val v))
        (st.hset (pre ++ m.name ++ "_" ++ jsString curV) k
          (objValidate.parseToString v)) hcur' hkeys'
      refine ⟨by rw [this.1]; rfl, fun hk hne => ?_⟩
      rw [this.2 hk hne]
      simp only [Store.hset]
      exact alistGet_set_other _ _ _ _ hne

/-- Claim C9: an `update` whose validated data omits the key field or
keeps it strictly equal to the current value takes no rename path: the
result is exactly the field-assignment loop, the member sets are
unchanged, and every hash other than the instance's existing record
hash is unchanged. -/
theorem update_no_key_change_frame (pre : String) (m : Model) (self : Instance)
    (data : Record) (st : Store) (d : Record)
    (hval : objValidate.processKeys m.keyMap data true = .ok d)
    (hkeys : ∀ v, (m.key, v) ∈ d → strictEq v (attrValue self m.key) = true) :
    Table.update pre m self data st = .ok (Table.updateLoop pre m d self st) ∧
    (Table.updateLoop pre m d self st).2.sets = st.sets ∧
    (∀ hk, hk ≠ pre ++ m.name ++ "_" ++ jsString (attrValue self m.key) →
      alistGet (Table.updateLoop pre m d self st).2.data hk = alistGet st.data hk) := by
  have hframe := updateLoop_frame pre m (attrValue self m.key) d self st rfl hkeys
  refine ⟨?_, hframe.1, hframe.2⟩
  simp only [Table.update, hval]
  match hk : alistGet d m.key with
  | none => simp [hk, truthy]
  | some v =>
    have : strictEq v (attrValue self m.key) = true := hkeys v (alistGet_mem hk)
    simp [hk, this]

/-- Witness for C9: updating `age` on `john` leaves the member set and
the other record hash untouched. -/
theorem update_no_key_change_frame_witness :
    Table.update "" SimpleM johnInst [("age", .vNum 31)] simpleStore =
      .ok (Table.updateLoop "" SimpleM [("age", .vNum 31)] johnInst simpleStore) ∧
    (Table.updateLoop "" SimpleM [("age", .vNum 31)] johnInst simpleStore).2.sets =
      simpleStore.sets ∧
    alistGet (Table.updateLoop "" SimpleM [("age", .vNum 31)] johnInst
      simpleStore).2.data "User_jane" = alistGet simpleStore.data "User_jane" :=
  have h := update_no_key_change_frame "" SimpleM johnInst [("age", .vNum 31)]
    simpleStore [("age", .vNum 31)] rfl
    (by intro v hv; simp only [List.mem_singleton, Prod.mk.injEq] at hv;
        exact absurd hv.1 (by decide))
  ⟨h.1, h.2.1, h.2.2 "User_jane" (by decide)⟩

/-- Once the match count can no longer reach the total, the filter loop
returns `false`. -/
theorem matchCountLoop_never (inst : Instance) :
    ∀ (fs : List (String × Value)) (c total : Nat), c + fs.length < total →
      matchCountLoop inst total fs c = false := by
  intro fs
  induction fs with
  | nil => intro c total h; rfl
  | cons p rest ih =>
    intro c total h
    cases p with
    | mk k w =>
      simp only [matchCountLoop]
      split
      · have hne : ¬(c + 1 = total) := by
          simp only [List.length_cons] at h
          omega
        rw [if_neg hne]
        exact ih (c + 1) total (by simp only [List.length_cons] at h; omega)
      · exact ih c total (by simp only [List.length_cons] at h; omega)

/-- With the correct running total, the match-count loop is exactly the
all-pairs conjunction. -/
theorem matchCountLoop_all (inst : Instance) :
    ∀ (fs : List (String × Value)) (c : Nat), fs ≠ [] →
      matchCountLoop inst (c + fs.length) fs c =
        fs.all (fun p => attrStrictEq inst p.1 p.2) := by
  intro fs
  induction fs with
  | nil => intro c h; exact absurd rfl h
  | cons p rest ih =>
    intro c _
    cases p with
    | mk k w =>
      simp only [matchCountLoop, List.all_cons]
      split
      · rename_i hmatch
        by_cases hrest : rest = []
        · subst hrest; simp [hmatch]
        · have hne : ¬(c + 1 = c + ((k, w) :: rest).length) := by
            cases rest with
            | nil => exact absurd rfl hrest
            | cons q qs => simp
          rw [if_neg hne]
          have harith : c + ((k, w) :: rest).length = (c + 1) + rest.length := by
            simp only [List.length_cons]
            omega
          rw [harith, ih (c + 1) hrest]
          simp [hmatch]
      · rename_i hmatch
        have : matchCountLoop inst (c + ((k, w) :: rest).length) rest c = false :=
          matchCountLoop_never inst rest c _ (by simp)
        simp only [this]
        simp at hmatch
        simp [hmatch]

/-- The push test under a nonempty options map is the all-pairs
conjunction — never a subset match. -/
theorem pushDecision_filter (inst : Instance) (fs : List (String × Value))
    (h : fs ≠ []) : pushDecision (some fs) inst = matchesAllPairs inst fs := by
  have := matchCountLoop_all inst fs 0 h
  simp only [Nat.zero_add] at this
  simp [pushDecision, matchesAllPairs, this]

/-- The member loop with a nonempty filter computes exactly the
filtered variant of the unfiltered loop. -/
theorem listLoopAux_filter (ops : Ops) (m : Model) (fs : List (String × Value))
    (hne : fs ≠ []) :
    ∀ (ms : List Value) (accN : List Instance) (h : HelperV),
      listLoopAux ops m (some fs) ms
        (accN.filter (fun i => matchesAllPairs i fs)) h =
      Option.map (fun p =>
        (Except.map (fun l => l.filter (fun i => matchesAllPairs i fs)) p.1, p.2))
        (listLoopAux ops m none ms accN h) := by
  intro ms
  induction ms with
  | nil => intro accN h; rfl
  | cons e rest ih =>
    intro accN h
    simp only [listLoopAux]
    match hget : ops.get m e h with
    | none => rfl
    | some (.error er, h') => rfl
    | some (.ok inst, h') =>
      dsimp only
      rw [pushDecision_filter inst fs hne,
        show (if pushDecision none inst = true then accN ++ [inst] else accN) =
          accN ++ [inst] from rfl]
      by_cases hp : matchesAllPairs inst fs = true
      · rw [if_pos hp]
        have hfa : (accN ++ [inst]).filter (fun i => matchesAllPairs i fs) =
            accN.filter (fun i => matchesAllPairs i fs) ++ [inst] := by
          simp [List.filter_append, hp]
        rw [← hfa]
        exact ih (accN ++ [inst]) h'
      · rw [if_neg hp]
        have hfa : (accN ++ [inst]).filter (fun i => matchesAllPairs i fs) =
            accN.filter (fun i => matchesAllPairs i fs) := by
          simp [List.filter_append, hp]
        rw [← hfa]
        exact ih (accN ++ [inst]) h'

/-- Without options the member loop pushes one instance per member. -/
theorem listLoopAux_length (ops : Ops) (m : Model) :
    ∀ (ms : List Value) (acc l : List Instance) (h h' : HelperV),
      listLoopAux ops m none ms acc h = some (.ok l, h') →
      l.length = acc.length + ms.length := by
  intro ms
  induction ms with
  | nil =>
    intro acc l h h' hyp
    simp [listLoopAux] at hyp
    simp [← hyp.1]
  | cons e rest ih =>
    intro acc l h h' hyp
    simp only [listLoopAux] at hyp
    match hget : ops.get m e h with
    | none => rw [hget] at hyp; simp at hyp
    | some (.error er, h'') => rw [hget] at hyp; simp at hyp
    | some (.ok inst, h'') =>
      rw [hget] at hyp
      simp only [pushDecision, if_true] at hyp
      have := ih (acc ++ [inst]) l h'' h' (by simpa using hyp)
      simp at this
      simp [this]
      omega

/-- Claim C4, amended: with a *nonempty* options map, `listDetail`
returns exactly the instances of the unfiltered listing that match
every key/value pair (a conjunction, never a subset match); without
options it returns one instance per member key; and `findall` is
definitionally `listDetail`. -/
theorem listDetail_filter_semantics :
    (∀ (reg : Registry) (pre : String) (st : Store) (fuel : Nat) (m : Model)
      (opts : List (String × Value)) (arg : HelperV), opts ≠ [] →
      Table.listDetailWith reg pre st fuel m opts arg =
        Option.map (fun p =>
          (Except.map (fun l => l.filter (fun i => matchesAllPairs i opts)) p.1, p.2))
          ((mkOps reg pre st fuel).listD m none arg)) ∧
    (∀ (reg : Registry) (pre : String) (st : Store) (fuel : Nat) (m : Model)
      (arg h' : HelperV) (l : List Instance),
      (mkOps reg pre st fuel).listD m none arg = some (.ok l, h') →
      l.length = (st.smembers (pre ++ m.name)).length) ∧
    (∀ (reg : Registry) (pre : String) (st : Store) (fuel : Nat) (m : Model)
      (opts : List (String × Value)),
      Table.findall reg pre st fuel m opts = Table.listDetailOpts reg pre st fuel m opts) := by
  refine ⟨?_, ?_, fun _ _ _ _ _ _ => rfl⟩
  · intro reg pre st fuel m opts arg hne
    cases fuel with
    | zero => rfl
    | succ n =>
      simp only [Table.listDetailWith, mkOps_succ, listImpl]
      have := listLoopAux_filter (mkOps reg pre st n) m opts hne
        (st.smembers (pre ++ m.name)) [] arg
      simpa using this
  · intro reg pre st fuel m arg h' l hyp
    cases fuel with
    | zero => simp [mkOps_zero] at hyp
    | succ n =>
      simp only [mkOps_succ, listImpl] at hyp
      have := listLoopAux_length (mkOps reg pre st n) m
        (st.smembers (pre ++ m.name)) [] l arg h' hyp
      simpa using this

/-- Witness for C4 (amended): on the two-user store, the filtered
listing equals the filter of the unfiltered listing, and the
unfiltered listing has one instance per member. -/
theorem listDetail_filter_semantics_witness :
    Table.listDetailWith [] "" simpleStore 10 SimpleM [("age", .vNum 30)] .noneV =
      Option.map (fun p =>
        (Except.map (fun l => l.filter
          (fun i => matchesAllPairs i [("age", .vNum 30)])) p.1, p.2))
        ((mkOps [] "" simpleStore 10).listD SimpleM none .noneV) ∧
    ([johnInst, janeInst] : List Instance).length =
      (simpleStore.smembers "User").length ∧
    Table.findall [] "" simpleStore 10 SimpleM [("age", .vNum 30)] =
      Table.listDetailOpts [] "" simpleStore 10 SimpleM [("age", .vNum 30)] :=
  ⟨listDetail_filter_semantics.1 [] "" simpleStore 10 SimpleM [("age", .vNum 30)]
     .noneV (by simp),
   listDetail_filter_semantics.2.1 [] "" simpleStore 10 SimpleM .noneV .noneV
     [johnInst, janeInst] rfl,
   listDetail_filter_semantics.2.2 [] "" simpleStore 10 SimpleM [("age", .vNum 30)]⟩

/-- Counterexample to claim C4 as stated: the empty options map is a
non-absent options map, and every stored instance vacuously matches
each of its (zero) key/value pairs — yet `listDetail({})` returns the
empty list instead of all instances. -/
theorem listDetail_empty_options_violates_conjunction :
    Table.listDetailOpts [] "" simpleStore 10 SimpleM [] = some (.ok [], .optsV []) ∧
    Table.listDetail [] "" simpleStore 10 SimpleM =
      some (.ok [johnInst, janeInst], .noneV) ∧
    matchesAllPairs johnInst [] = true ∧
    matchesAllPairs janeInst [] = true :=
  ⟨rfl, rfl, rfl, rfl⟩

/-- Claim C1: on the cyclic schema (`TestUser` "many"→ `TestPost`,
`TestPost` "one"→ `TestUser`) a top-level `get` of a user terminates at
every recursion depth of at least three, its `posts` list is populated
with the related post, and the loaded post child carries no resolved
`user` back-reference — the guard cut the cycle. -/
theorem cycle_get_terminates_and_prunes :
    (∀ f : Nat, Table.get cycleReg "" cycleStore (f + 3) UserM (.vStr "user1") =
      some (.ok user1Loaded, .noneV)) ∧
    alistGet user1Loaded "posts" = some (.many [post1Bare]) ∧
    alistGet post1Bare "user" = none :=
  ⟨fun _ => rfl, rfl, rfl⟩

/-- At every depth, `get` called without a helper behaves (result-wise)
exactly like `get` under a fresh `QueryHelper` seeded with the model's
own name. -/
theorem mkOps_get_fresh (reg : Registry) (pre : String) (st : Store) (n : Nat)
    (m : Model) (idx : Value) :
    ((mkOps reg pre st n).get m idx .noneV).map Prod.fst =
      ((mkOps reg pre st n).get m idx (.qhV [m.name])).map Prod.fst := by
  cases n with
  | zero => rfl
  | succ k =>
    simp only [mkOps_succ, getImpl]
    split
    · rfl
    · split
      · rfl
      · cases hb : buildRelationsFields reg (mkOps reg pre st k) m.key m.keyMap _
          (.qhV [m.name]) with
        | none => rfl
        | some p => rfl

/-- A `get` without a helper leaves the caller's helper position
untouched: the fresh `QueryHelper` it creates is local to the call. -/
theorem mkOps_get_noneV_helper (reg : Registry) (pre : String) (st : Store)
    (n : Nat) (m : Model) (idx : Value) (r : Except Err Instance) (h' : HelperV)
    (hres : (mkOps reg pre st n).get m idx .noneV = some (r, h')) :
    h' = .noneV := by
  cases n with
  | zero => simp [mkOps_zero] at hres
  | succ k =>
    simp only [mkOps_succ, getImpl] at hres
    split at hres
    · cases hres; rfl
    · split at hres
      · cases hres; rfl
      · split at hres
        · simp at hres
        · rename_i p heq
          cases hres
          rfl

/-- The zero-argument `listDetail` member loop computes the same
results as the spec's fresh-helper loop. -/
theorem listLoop_fresh (reg : Registry) (pre : String) (st : Store) (n : Nat)
    (m : Model) :
    ∀ (ms : List Value) (acc : List Instance),
      (listLoopAux (mkOps reg pre st n) m none ms acc .noneV).map Prod.fst =
        freshLoop (mkOps reg pre st n) m none ms acc := by
  intro ms
  induction ms with
  | nil => intro acc; rfl
  | cons e rest ih =>
    intro acc
    have hfr := mkOps_get_fresh reg pre st n m e
    simp only [listLoopAux, freshLoop]
    cases hg : (mkOps reg pre st n).get m e .noneV with
    | none =>
      rw [hg] at hfr
      simp only [Option.map_none'] at hfr
      cases hg2 : (mkOps reg pre st n).get m e (.qhV [m.name]) with
      | none => rfl
      | some p => rw [hg2] at hfr; simp at hfr
    | some p =>
      obtain ⟨r, h'⟩ := p
      have hh : h' = .noneV := mkOps_get_noneV_helper reg pre st n m e r h' hg
      subst hh
      rw [hg] at hfr
      cases hg2 : (mkOps reg pre st n).get m e (.qhV [m.name]) with
      | none => rw [hg2] at hfr; simp at hfr
      | some q =>
        obtain ⟨r2, h2⟩ := q
        rw [hg2] at hfr
        simp only [Option.map_some'] at hfr
        cases hfr
        cases r with
        | error er => rfl
        | ok inst => exact ih _

/-- Claim C2, amended: a top-level `get` with no helper resolves
relations under a freshly created `QueryHelper` seeded with the root
model's name (and that local helper never leaks to the caller); a
zero-argument `listDetail` does the same for every member.  But a
`listDetail` call carrying only a filter-options argument forwards the
options object itself in the helper position, so no fresh `QueryHelper`
is created there and the cycle guard is inactive for that call. -/
theorem queryHelper_default_seeding :
    (∀ (reg : Registry) (pre : String) (st : Store) (fuel : Nat) (m : Model)
      (idx : Value),
      (Table.get reg pre st fuel m idx).map Prod.fst =
        (Table.getWith reg pre st fuel m idx (.qhV [m.name])).map Prod.fst) ∧
    (∀ (reg : Registry) (pre : String) (st : Store) (fuel : Nat) (m : Model),
      (Table.listDetail reg pre st fuel m).map Prod.fst =
        listDetailFresh reg pre st fuel m none) ∧
    (∀ (reg : Registry) (pre : String) (st : Store) (fuel : Nat) (m : Model)
      (opts : List (String × Value)),
      Table.listDetailOpts reg pre st fuel m opts =
        (mkOps reg pre st fuel).listD m (some opts) (.optsV opts)) := by
  refine ⟨fun reg pre st fuel m idx => mkOps_get_fresh reg pre st fuel m idx,
    ?_, fun _ _ _ _ _ _ => rfl⟩
  intro reg pre st fuel m
  cases fuel with
  | zero => rfl
  | succ n =>
    simp only [Table.listDetail, mkOps_succ, listImpl, listDetailFresh]
    exact listLoop_fresh reg pre st n m (st.smembers (pre ++ m.name)) []

/-- Counterexample to claim C2 as stated: on the cyclic two-model
schema, `listDetail` called with only a filter-options argument does
not behave like resolution under a fresh root-seeded QueryHelper.  The
guarded behaviour the claim prescribes finishes (well within depth 30);
the actual call forwards the options object as the helper, the guard is
disabled, and the traversal exhausts any recursion depth. -/
theorem listDetail_optsOnly_guard_inactive :
    (Table.listDetailOpts cycleReg "" cycleStore 30 PostM
      [("userId", .vStr "user1")]).map Prod.fst = none ∧
    listDetailFresh cycleReg "" cycleStore 30 PostM
      (some [("userId", .vStr "user1")]) ≠ none :=
  ⟨rfl, fun h => Option.noConfusion
    ((rfl :
      listDetailFresh cycleReg "" cycleStore 30 PostM
        (some [("userId", .vStr "user1")]) =
      listDetailFresh cycleReg "" cycleStore 30 PostM
        (some [("userId", .vStr "user1")])) ▸ h)⟩

theorem alistGet_del_self {α : Type} (l : List (String × α)) (k : String) :
    alistGet (alistDel l k) k = none := by
  induction l with
  | nil => rfl
  | cons p rest ih =>
    cases p with
    | mk a b =>
      by_cases ha : a = k
      · simp [alistDel, ha] at ih ⊢
        simpa [alistDel] using ih
      · simp [alistDel, ha] at ih ⊢
        simpa [alistDel, ha] using ih

theorem alistGet_del_other {α : Type} (l : List (String × α)) (k k' : String)
    (h : k' ≠ k) : alistGet (alistDel l k) k' = alistGet l k' := by
  induction l with
  | nil => rfl
  | cons p rest ih =>
    cases p with
    | mk a b =>
      by_cases ha : a = k
      · subst ha
        have : ¬a = k' := fun hh => h hh.symm
        simp [alistDel, this] at ih ⊢
        simpa [alistDel] using ih
      · by_cases ha' : a = k'
        · subst ha'
          have hbk : (a != k) = true := by simp [ha]
          simp [alistDel, List.filter_cons, hbk]
        · simp [alistDel, ha, ha'] at ih ⊢
          simpa [alistDel, ha] using ih

/-- After a rename the source hash is gone. -/
theorem alistGet_rename_src (st : Store) (a b : String) :
    alistGet (st.rename a b).data a = none := by
  simp only [Store.rename]
  cases hsrc : alistGet st.data a with
  | none => simpa using hsrc
  | some h => simp [alistGet_del_self]

/-- After a rename onto a fresh destination, the destination hash holds
exactly the old source hash. -/
theorem hgetall_rename_dst (st : Store) (a b : String) (hne : a ≠ b)
    (hstale : alistGet st.data b = none) :
    (st.rename a b).hgetall b = st.hgetall a := by
  simp only [Store.rename, Store.hgetall]
  cases hsrc : alistGet st.data a with
  | none => simp [hsrc, hstale]
  | some h =>
    have hba : b ≠ a := fun hh => hne hh.symm
    simp [hsrc, alistGet_del_other _ _ _ hba, alistGet_set_self]

theorem string_left_cancel {s a b : String} (h : s ++ a = s ++ b) : a = b := by
  have hd := congrArg String.data h
  simp only [String.data_append] at hd
  have hab := List.append_cancel_left hd
  cases a with
  | mk da =>
    cases b with
    | mk db =>
      congr 1

/-- During the update loop, writes to the instance's current record
hash leave every field that is not among the passed keys unchanged. -/
theorem updateLoop_hash_fields (pre : String) (m : Model) (curV : Value) :
    ∀ (d : Record) (self : Instance) (st : Store),
      attrValue self m.key = curV →
      (∀ v, (m.key, v) ∈ d → strictEq v curV = true) →
      ∀ fld, fld ∉ d.map Prod.fst →
        alistGet ((Table.updateLoop pre m d self st).2.hgetall
          (pre ++ m.name ++ "_" ++ jsString curV)) fld =
        alistGet (st.hgetall (pre ++ m.name ++ "_" ++ jsString curV)) fld := by
  intro d
  induction d with
  | nil => intro self st hcur hkeys fld hfld; rfl
  | cons p rest ih =>
    intro self st hcur hkeys fld hfld
    cases p with
    | mk k v =>
      have hcur' : attrValue (alistSet self k (.val v)) m.key = curV := by
        by_cases hk : k = m.key
        · subst hk
          have hv : v = curV :=
            strictEq_eq (hkeys v (List.mem_cons_self _ _))
          simp [attrValue, alistGet_set_self, hv]
        · have heq : alistGet (alistSet self k (.val v)) m.key = alistGet self m.key :=
            alistGet_set_other _ _ _ _ (fun hh => hk hh.symm)
          simpa [attrValue, heq] using hcur
      have hkeys' : ∀ v', (m.key, v') ∈ rest → strictEq v' curV = true :=
        fun v' hv' => hkeys v' (List.mem_cons_of_mem _ hv')
      have hfldk : fld ≠ k := by
        intro hh
        exact hfld (by simp [hh])
      have hfld' : fld ∉ rest.map Prod.fst := by
        intro hh
        exact hfld (by simp [hh])
      simp only [Table.updateLoop, hcur']
      rw [ih (alistSet self k (.val v)) _ hcur' hkeys' fld hfld']
      rw [hgetall_hset_self]
      exact alistGet_set_other _ _ _ _ hfldk

/-- Counterexample to claim C6 as stated: renaming the key field while
also passing a field that the validated data orders *before* the key
field re-creates the old record hash — the loop writes that field under
the instance's not-yet-updated key.  A subsequent `get` of the old key
then succeeds instead of failing with `EntryNotFound`.  Here `email`
precedes `username` (the key) in the schema, the key moves from `john`
to the unused `john2`, yet `EUser_john` survives with the new email. -/
theorem update_nonfirst_key_resurrects_old_hash :
    Table.existsIndex "" eStore EUserM (.vStr "john2") = false ∧
    (Table.update "" EUserM eSelf
      [("email", .vStr "new@example.com"), ("username", .vStr "john2")] eStore).map
      (fun p => p.2.hgetall "EUser_john") = .ok [("email", "new@example.com")] ∧
    (Table.update "" EUserM eSelf
      [("email", .vStr "new@example.com"), ("username", .vStr "john2")] eStore).map
      (fun p => (Table.get [] "" p.2 3 EUserM (.vStr "john")).map
        (fun q => match q.1 with | .ok _ => "ok" | .error e => e.name)) =
      .ok (some "ok") :=
  ⟨rfl, rfl, rfl⟩

/-- Claim C6, amended: renaming the key field behaves as the claim
states *provided* the key field is the first field of the validated
update data (in particular when it is the only one), the new key value
is truthy (a falsy key short-circuits `data[this._key] && ...` and the
rename branch is skipped entirely), it is strictly different from the
current key with a different string rendering, it is not already a
member, and no leftover hash is stored under the new key's record name:
then the old record hash is empty afterwards, a `get` of the old key
fails with `EntryNotFound`, and every field not passed in the update is
carried over unchanged to the new key's record hash. -/
theorem update_key_first_rename_clean (pre : String) (m : Model)
    (self : Instance) (data : Record) (st : Store) (newK : Value) (rest : Record)
    (hval : objValidate.processKeys m.keyMap data true = .ok ((m.key, newK) :: rest))
    (hnotin : m.key ∉ rest.map Prod.fst)
    (htr : truthy newK = true)
    (hneq : strictEq newK (attrValue self m.key) = false)
    (hex : Table.existsIndex pre st m newK = false)
    (hstr : jsString newK ≠ jsString (attrValue self m.key))
    (hstale : alistGet st.data (pre ++ m.name ++ "_" ++ jsString newK) = none) :
    ∃ (self' : Instance) (st' : Store),
      Table.update pre m self data st = .ok (self', st') ∧
      st'.hgetall (pre ++ m.name ++ "_" ++ jsString (attrValue self m.key)) = [] ∧
      (∀ (fuel : Nat) (reg : Registry),
        Table.get reg pre st' (fuel + 1) m (attrValue self m.key) =
          some (.error (entryNotFound m (attrValue self m.key)), .noneV)) ∧
      (∀ fld, fld ∉ ((m.key, newK) :: rest).map Prod.fst →
        alistGet (st'.hgetall (pre ++ m.name ++ "_" ++ jsString newK)) fld =
        alistGet (st.hgetall
          (pre ++ m.name ++ "_" ++ jsString (attrValue self m.key))) fld) := by
  have hHne : pre ++ m.name ++ "_" ++ jsString (attrValue self m.key) ≠
      pre ++ m.name ++ "_" ++ jsString newK := by
    intro hh
    have h1 : (pre ++ m.name ++ "_") ++ jsString (attrValue self m.key) =
        (pre ++ m.name ++ "_") ++ jsString newK := by
      simpa [String.append_assoc] using hh
    exact hstr (string_left_cancel h1).symm
  have hupd : Table.update pre m self data st =
      .ok (Table.updateLoop pre m ((m.key, newK) :: rest) self
        (((st.srem (pre ++ m.name) (attrValue self m.key)).sadd (pre ++ m.name) newK).rename
          (pre ++ m.name ++ "_" ++ jsString (attrValue self m.key))
          (pre ++ m.name ++ "_" ++ jsString newK))) := by
    simp only [Table.update, hval, alistGet_cons, if_pos rfl, Option.getD_some,
      htr, hneq, Bool.not_false, Bool.and_self, if_true, hex, Bool.and_false,
      Bool.false_eq_true, if_false]
  set st1 := (st.srem (pre ++ m.name) (attrValue self m.key)).sadd (pre ++ m.name) newK
    with hst1
  set st2 := st1.rename (pre ++ m.name ++ "_" ++ jsString (attrValue self m.key))
    (pre ++ m.name ++ "_" ++ jsString newK) with hst2
  have hself1 : attrValue (alistSet self m.key (.val newK)) m.key = newK := by
    simp [attrValue, alistGet_set_self]
  have hloop1 : Table.updateLoop pre m ((m.key, newK) :: rest) self st2 =
      Table.updateLoop pre m rest (alistSet self m.key (.val newK))
        (st2.hset (pre ++ m.name ++ "_" ++ jsString newK) m.key
          (objValidate.parseToString newK)) := by
    simp only [Table.updateLoop, hself1]
  set self1 := alistSet self m.key (.val newK) with hself1d
  set stA := st2.hset (pre ++ m.name ++ "_" ++ jsString newK) m.key
    (objValidate.parseToString newK) with hstA
  have hrest : ∀ v, (m.key, v) ∈ rest → strictEq v newK = true := by
    intro v hv
    exact absurd (List.mem_map_of_mem Prod.fst hv) hnotin
  have hframe := updateLoop_frame pre m newK rest self1 stA hself1 hrest
  refine ⟨(Table.updateLoop pre m rest self1 stA).1,
    (Table.updateLoop pre m rest self1 stA).2, by rw [hupd, hloop1], ?_, ?_, ?_⟩
  · -- the old record hash is gone
    have hold : alistGet (Table.updateLoop pre m rest self1 stA).2.data
        (pre ++ m.name ++ "_" ++ jsString (attrValue self m.key)) =
        alistGet stA.data (pre ++ m.name ++ "_" ++ jsString (attrValue self m.key)) :=
      hframe.2 _ hHne
    rw [Store.hgetall, hold, hstA]
    rw [show (st2.hset (pre ++ m.name ++ "_" ++ jsString newK) m.key
        (objValidate.parseToString newK)).data =
      alistSet st2.data (pre ++ m.name ++ "_" ++ jsString newK)
        (alistSet (st2.hgetall (pre ++ m.name ++ "_" ++ jsString newK)) m.key
          (objValidate.parseToString newK)) from rfl]
    rw [alistGet_set_other _ _ _ _ hHne, hst2, alistGet_rename_src]
    rfl
  · -- a get of the old key fails EntryNotFound
    intro fuel reg
    have hempty : (Table.updateLoop pre m rest self1 stA).2.hgetall
        (pre ++ m.name ++ "_" ++ jsString (attrValue self m.key)) = [] := by
      have hold : alistGet (Table.updateLoop pre m rest self1 stA).2.data
          (pre ++ m.name ++ "_" ++ jsString (attrValue self m.key)) =
          alistGet stA.data (pre ++ m.name ++ "_" ++ jsString (attrValue self m.key)) :=
        hframe.2 _ hHne
      rw [Store.hgetall, hold, hstA]
      rw [show (st2.hset (pre ++ m.name ++ "_" ++ jsString newK) m.key
          (objValidate.parseToString newK)).data =
        alistSet st2.data (pre ++ m.name ++ "_" ++ jsString newK)
          (alistSet (st2.hgetall (pre ++ m.name ++ "_" ++ jsString newK)) m.key
            (objValidate.parseToString newK)) from rfl]
      rw [alistGet_set_other _ _ _ _ hHne, hst2, alistGet_rename_src]
      rfl
    simp only [Table.get, mkOps_succ, getImpl, hempty]
    rfl
  · -- untouched fields carried to the new hash
    intro fld hfld
    have hfld1 : fld ∉ rest.map Prod.fst := by
      intro hh
      exact hfld (by simp [hh])
    have hfldk : fld ≠ m.key := by
      intro hh
      exact hfld (by simp [hh])
    have hfields := updateLoop_hash_fields pre m newK rest self1 stA hself1 hrest
      fld hfld1
    rw [hfields, hstA, hgetall_hset_self, alistGet_set_other _ _ _ _ hfldk, hst2]
    rw [hgetall_rename_dst st1 _ _ hHne (by rw [hst1]; simpa using hstale)]
    rfl

/-- Witness for C6 (amended): renaming `john` to `john2` with the key
field first (and only) in the update data: the old key 404s and the
email field survives on the new hash. -/
theorem update_key_first_rename_clean_witness :
    ∃ (self' : Instance) (st' : Store),
      Table.update "" EUserM eSelf [("username", .vStr "john2")] eStore =
        .ok (self', st') ∧
      st'.hgetall "EUser_john" = [] ∧
      (∀ (fuel : Nat) (reg : Registry),
        Table.get reg "" st' (fuel + 1) EUserM (.vStr "john") =
          some (.error (entryNotFound EUserM (.vStr "john")), .noneV)) ∧
      (∀ fld, fld ∉ [("username", Value.vStr "john2")].map Prod.fst →
        alistGet (st'.hgetall "EUser_john2") fld =
        alistGet (eStore.hgetall "EUser_john") fld) :=
  update_key_first_rename_clean "" EUserM eSelf [("username", .vStr "john2")]
    eStore (.vStr "john2") [] rfl (by simp) rfl rfl rfl (by decide) rfl

theorem charVal_digitChar (d : Nat) (h : d < 10) :
    charVal (Nat.digitChar d) = d := by
  interval_cases d <;> decide

theorem isDigit_digitChar (d : Nat) (h : d < 10) :
    (Nat.digitChar d).isDigit = true := by
  interval_cases d <;> decide

theorem natChars_digits (m : Nat) : ∀ c ∈ natChars m, c.isDigit = true := by
  intro c hc
  unfold natChars at hc
  split at hc
  · simp at hc
    subst hc
    decide
  · simp only [List.mem_map, List.mem_reverse] at hc
    obtain ⟨d, hd, hdc⟩ := hc
    have hlt := Nat.digits_lt_base (by norm_num) hd
    subst hdc
    exact isDigit_digitChar d hlt

theorem natChars_ne_nil (m : Nat) : natChars m ≠ [] := by
  unfold natChars
  split
  · simp
  · rename_i h
    simp [Nat.digits_ne_nil_iff_ne_zero, h]

theorem takeDigits_append (ds rest : List Char)
    (hds : ∀ c ∈ ds, c.isDigit = true) (hrest : noDigitHead rest = true) :
    takeDigits (ds ++ rest) = (ds, rest) := by
  induction ds with
  | nil =>
    cases rest with
    | nil => rfl
    | cons c cs =>
      simp only [noDigitHead, Bool.not_eq_true'] at hrest
      simp [takeDigits, hrest]
  | cons c cs ih =>
    have hc : c.isDigit = true := hds c (by simp)
    simp only [List.cons_append, takeDigits, hc, if_true, List.append_eq]
    rw [ih (fun x hx => hds x (by simp [hx]))]

theorem charsToNat_digitList : ∀ L : List Nat, (∀ d ∈ L, d < 10) →
    charsToNat ((L.reverse).map Nat.digitChar) = Nat.ofDigits 10 L := by
  intro L
  induction L with
  | nil => intro _; rfl
  | cons d rest ih =>
    intro h
    have happ : ∀ (xs : List Char) (c : Char),
        charsToNat (xs ++ [c]) = 10 * charsToNat xs + charVal c := by
      intro xs c
      simp [charsToNat, List.foldl_append]
    rw [List.reverse_cons, List.map_append, List.map_singleton, happ,
      ih (fun x hx => h x (by simp [hx])),
      charVal_digitChar d (h d (by simp)), Nat.ofDigits_cons]
    omega

theorem charsToNat_natChars (m : Nat) : charsToNat (natChars m) = m := by
  unfold natChars
  split
  · rename_i h
    subst h
    decide
  · rw [charsToNat_digitList _ (fun d hd => Nat.digits_lt_base (by norm_num) hd)]
    exact Nat.ofDigits_digits 10 m

theorem parseNat_natChars (m : Nat) (rest : List Char)
    (hrest : noDigitHead rest = true) :
    parseNat (natChars m ++ rest) = some (m, rest) := by
  unfold parseNat
  rw [takeDigits_append _ _ (natChars_digits m) hrest]
  have hval := charsToNat_natChars m
  cases hn : natChars m with
  | nil => exact absurd hn (natChars_ne_nil m)
  | cons c cs =>
    rw [hn] at hval
    simp [hval]

theorem parseInt_intChars (n : Int) (rest : List Char)
    (hrest : noDigitHead rest = true) :
    parseInt (intChars n ++ rest) = some (n, rest) := by
  unfold intChars
  split
  · rename_i hneg
    simp only [List.cons_append, parseInt]
    rw [parseNat_natChars _ _ hrest]
    simp only [Option.map_some']
    have : -(n.natAbs : Int) = n := by omega
    rw [this]
  · rename_i hpos
    cases hn : natChars n.natAbs with
    | nil => exact absurd hn (natChars_ne_nil _)
    | cons c cs =>
      have hc : c.isDigit = true := natChars_digits _ c (by rw [hn]; simp)
      have hpn := parseNat_natChars n.natAbs rest hrest
      rw [hn] at hpn
      rw [List.cons_append] at hpn ⊢
      rw [parseInt.eq_def]
      split
      · rename_i heq
        have : c = '-' := by
          have := congrArg (fun l => l.head?) heq
          simpa using this
        rw [this] at hc
        exact absurd hc (by decide)
      · rw [hpn]
        simp only [Option.map_some']
        have : (n.natAbs : Int) = n := by omega
        rw [this]

theorem parseStrBody_escape : ∀ cs rest : List Char,
    parseStrBody (escapeChars cs ++ '"' :: rest) = some (cs, rest) := by
  intro cs
  induction cs with
  | nil =>
    intro rest
    rw [show escapeChars [] ++ '"' :: rest = '"' :: rest from rfl,
      parseStrBody.eq_def]
    simp
  | cons c cs' ih =>
    intro rest
    by_cases hc : c = '"' ∨ c = '\\'
    · simp only [escapeChars, if_pos hc, List.cons_append]
      rw [show parseStrBody ('\\' :: c :: (escapeChars cs' ++ '"' :: rest)) =
        (parseStrBody (escapeChars cs' ++ '"' :: rest)).map
          (fun p => (c :: p.1, p.2)) from rfl]
      rw [ih rest]
      rfl
    · push_neg at hc
      simp only [escapeChars, if_neg (not_or.mpr ⟨hc.1, hc.2⟩), List.cons_append]
      rw [parseStrBody.eq_def]
      dsimp only
      rw [if_neg hc.1, if_neg hc.2, ih rest]
      rfl

theorem renderList_eq_tail : ∀ (x : Json) (xs : List Json),
    Json.renderList (x :: xs) = x.renderChars ++ tailRender xs := by
  intro x xs
  induction xs generalizing x with
  | nil => simp [Json.renderList, tailRender]
  | cons y ys ih =>
    rw [show Json.renderList (x :: y :: ys) =
      x.renderChars ++ ',' :: Json.renderList (y :: ys) from rfl]
    rw [ih y]
    simp [tailRender]

theorem renderFields_eq_tail : ∀ (k : String) (j : Json)
    (ms : List (String × Json)),
    Json.renderFields ((k, j) :: ms) = memberRender k j ++ tailRenderObj ms := by
  intro k j ms
  induction ms generalizing k j with
  | nil => simp [Json.renderFields, memberRender, tailRenderObj]
  | cons mm ms' ih =>
    cases mm with
    | mk k2 j2 =>
      rw [show Json.renderFields ((k, j) :: (k2, j2) :: ms') =
        ('"' :: (escapeChars k.data ++ '"' :: ':' :: j.renderChars)) ++
          ',' :: Json.renderFields ((k2, j2) :: ms') from rfl]
      rw [ih k2 j2]
      simp [memberRender, tailRenderObj]

theorem natChars_head (m : Nat) :
    ∃ d rest, d < 10 ∧ natChars m = Nat.digitChar d :: rest := by
  unfold natChars
  split
  · exact ⟨0, [], by norm_num, rfl⟩
  · rename_i h
    cases hrev : (Nat.digits 10 m).reverse with
    | nil =>
      rw [List.reverse_eq_nil_iff] at hrev
      rw [Nat.digits_eq_nil_iff_eq_zero] at hrev
      exact absurd hrev h
    | cons d tl =>
      refine ⟨d, tl.map Nat.digitChar, ?_, rfl⟩
      have hmem : d ∈ Nat.digits 10 m := by
        rw [← List.mem_reverse, hrev]
        simp
      exact Nat.digits_lt_base (by norm_num) hmem

theorem renderChars_head_ne_rbracket (j : Json) :
    ∃ c cs, j.renderChars = c :: cs ∧ c ≠ ']' := by
  cases j with
  | null => exact ⟨'n', _, rfl, by decide⟩
  | bool b =>
    cases b with
    | true => exact ⟨'t', _, rfl, by decide⟩
    | false => exact ⟨'f', _, rfl, by decide⟩
  | str s => exact ⟨'"', _, rfl, by decide⟩
  | arr xs => exact ⟨'[', _, rfl, by decide⟩
  | obj ms => exact ⟨'{', _, rfl, by decide⟩
  | num n =>
    show ∃ c cs, intChars n = c :: cs ∧ c ≠ ']'
    unfold intChars
    split
    · exact ⟨'-', _, rfl, by decide⟩
    · obtain ⟨d, tl, hd, hn⟩ := natChars_head n.natAbs
      refine ⟨Nat.digitChar d, tl, hn, ?_⟩
      interval_cases d <;> decide

theorem noDigitHead_tailRender (xs : List Json) (rest : List Char) :
    noDigitHead (tailRender xs ++ ']' :: rest) = true := by
  cases xs <;> rfl

theorem noDigitHead_tailRenderObj (ms : List (String × Json)) (rest : List Char) :
    noDigitHead (tailRenderObj ms ++ '}' :: rest) = true := by
  cases ms <;> rfl

theorem jsize_pos (j : Json) : 1 ≤ jsize j := by
  cases j <;> simp [jsize]

theorem jsizeArr_pos (xs : List Json) : 1 ≤ jsizeArr xs := by
  cases xs <;> simp [jsizeArr]

theorem jsizeObj_pos (ms : List (String × Json)) : 1 ≤ jsizeObj ms := by
  cases ms with
  | nil => simp [jsizeObj]
  | cons mm ms =>
    simp only [jsizeObj]
    omega

theorem parseVal_digit_step (F : Nat) (c : Char) (X : List Char)
    (h : c = '-' ∨ c.isDigit = true) :
    parseVal (F + 1) (c :: X) =
      (parseInt (c :: X)).map (fun p => (Json.num p.1, p.2)) := by
  have h1 : c ≠ 'n' := by rintro rfl; revert h; decide
  have h2 : c ≠ 't' := by rintro rfl; revert h; decide
  have h3 : c ≠ 'f' := by rintro rfl; revert h; decide
  have h4 : c ≠ '"' := by rintro rfl; revert h; decide
  have h5 : c ≠ '[' := by rintro rfl; revert h; decide
  have h6 : c ≠ '{' := by rintro rfl; revert h; decide
  rw [parseVal.eq_def]
  dsimp only
  rw [if_neg h1, if_neg h2, if_neg h3, if_neg h4, if_neg h5, if_neg h6, if_pos h]

theorem parseVal_str_step (F : Nat) (R : List Char) :
    parseVal (F + 1) ('"' :: R) =
      (parseStrBody R).map (fun p => (Json.str ⟨p.1⟩, p.2)) := by
  rw [parseVal.eq_def]
  dsimp only
  rw [if_neg (by decide), if_neg (by decide), if_neg (by decide), if_pos rfl]

theorem parseVal_arr_step (F : Nat) (R : List Char) :
    parseVal (F + 1) ('[' :: R) =
      (if R.head? = some ']' then some (.arr [], R.tail)
       else
         match parseVal F R with
         | none => none
         | some (j, rest1) =>
           match parseArrTail F rest1 with
           | none => none
           | some (js, rest2) => some (.arr (j :: js), rest2)) := by
  rw [parseVal.eq_def]
  dsimp only
  rw [if_neg (by decide), if_neg (by decide), if_neg (by decide),
    if_neg (by decide), if_pos rfl]

theorem parseVal_obj_step (F : Nat) (R : List Char) :
    parseVal (F + 1) ('{' :: R) =
      (if R.head? = some '}' then some (.obj [], R.tail)
       else
         match parseMember F R with
         | none => none
         | some (kv, rest1) =>
           match parseObjTail F rest1 with
           | none => none
           | some (kvs, rest2) => some (.obj (kv :: kvs), rest2)) := by
  rw [parseVal.eq_def]
  dsimp only
  rw [if_neg (by decide), if_neg (by decide), if_neg (by decide),
    if_neg (by decide), if_neg (by decide), if_pos rfl]

theorem parseArrTail_comma (F : Nat) (R : List Char) :
    parseArrTail (F + 1) (',' :: R) =
      (match parseVal F R with
       | none => none
       | some (j, rest1) =>
         match parseArrTail F rest1 with
         | none => none
         | some (js, rest2) => some (j :: js, rest2)) := by
  rw [parseArrTail.eq_def]
  dsimp only
  rw [if_neg (by decide), if_pos rfl]

theorem parseObjTail_comma (F : Nat) (R : List Char) :
    parseObjTail (F + 1) (',' :: R) =
      (match parseMember F R with
       | none => none
       | some (kv, rest1) =>
         match parseObjTail F rest1 with
         | none => none
         | some (kvs, rest2) => some (kv :: kvs, rest2)) := by
  rw [parseObjTail.eq_def]
  dsimp only
  rw [if_neg (by decide), if_pos rfl]

theorem parseMember_step (F : Nat) (Z : List Char) :
    parseMember (F + 1) ('"' :: Z) =
      (match parseStrBody Z with
       | some (kcs, ':' :: rest2) =>
         (parseVal F rest2).map (fun p => ((⟨kcs⟩, p.1), p.2))
       | _ => none) := rfl

/-- The joint render/parse inversion, by strong induction on term
size: parsing a rendered document (value, array tail, object tail, or
object member) with enough recursion depth returns exactly that
document and the untouched remainder. -/
theorem render_parse_bundle : ∀ N : Nat,
    (∀ j : Json, sizeOf j ≤ N → ∀ (fuel : Nat) (rest : List Char),
      jsize j ≤ fuel → noDigitHead rest = true →
      parseVal fuel (j.renderChars ++ rest) = some (j, rest)) ∧
    (∀ xs : List Json, sizeOf xs ≤ N → ∀ (fuel : Nat) (rest : List Char),
      jsizeArr xs ≤ fuel →
      parseArrTail fuel (tailRender xs ++ ']' :: rest) = some (xs, rest)) ∧
    (∀ ms : List (String × Json), sizeOf ms ≤ N → ∀ (fuel : Nat) (rest : List Char),
      jsizeObj ms ≤ fuel →
      parseObjTail fuel (tailRenderObj ms ++ '}' :: rest) = some (ms, rest)) ∧
    (∀ (k : String) (j : Json), sizeOf j ≤ N → ∀ (fuel : Nat) (rest : List Char),
      jsize j + 1 ≤ fuel → noDigitHead rest = true →
      parseMember fuel (memberRender k j ++ rest) = some ((k, j), rest)) := by
  intro N
  induction N using Nat.strong_induction_on with
  | _ N IH =>
    have P1 : ∀ j : Json, sizeOf j ≤ N → ∀ (fuel : Nat) (rest : List Char),
        jsize j ≤ fuel → noDigitHead rest = true →
        parseVal fuel (j.renderChars ++ rest) = some (j, rest) := by
      intro j hsz fuel rest hf hrest
      cases j with
      | null =>
        cases fuel with
        | zero => simp [jsize] at hf
        | succ F => rfl
      | bool b =>
        cases b with
        | true =>
          cases fuel with
          | zero => simp [jsize] at hf
          | succ F => rfl
        | false =>
          cases fuel with
          | zero => simp [jsize] at hf
          | succ F => rfl
      | num n =>
        cases fuel with
        | zero => simp [jsize] at hf
        | succ F =>
          have hpi := parseInt_intChars n rest hrest
          obtain ⟨c, cs, hic, hcd⟩ :
              ∃ c cs, intChars n = c :: cs ∧ (c = '-' ∨ c.isDigit = true) := by
            unfold intChars
            split
            · exact ⟨'-', _, rfl, Or.inl rfl⟩
            · obtain ⟨d, tl, hd10, hnc⟩ := natChars_head n.natAbs
              exact ⟨_, _, hnc, Or.inr (isDigit_digitChar d hd10)⟩
          rw [show Json.renderChars (.num n) = intChars n from rfl, hic,
            List.cons_append]
          rw [hic, List.cons_append] at hpi
          rw [parseVal_digit_step F c (cs ++ rest) hcd, hpi]
          rfl
      | str s =>
        cases s with
        | mk sd =>
          cases fuel with
          | zero => simp [jsize] at hf
          | succ F =>
            have hshape : Json.renderChars (.str ⟨sd⟩) ++ rest =
                '"' :: (escapeChars sd ++ '"' :: rest) := by
              rw [show Json.renderChars (.str ⟨sd⟩) =
                '"' :: (escapeChars sd ++ ['"']) from rfl]
              simp [List.append_assoc]
            rw [hshape, parseVal_str_step, parseStrBody_escape]
            rfl
      | arr xs =>
        cases xs with
        | nil =>
          cases fuel with
          | zero => simp [jsize, jsizeArr] at hf
          | succ F => rfl
        | cons x xs' =>
          cases fuel with
          | zero =>
            simp only [jsize] at hf
            have := jsizeArr_pos (x :: xs')
            omega
          | succ F =>
            have hN1 : 1 ≤ N := by
              simp at hsz
              omega
            have IHb := IH (N - 1) (by omega)
            have hszs : sizeOf x ≤ N - 1 ∧ sizeOf xs' ≤ N - 1 := by
              simp at hsz
              omega
            have hfa : jsize x ≤ F ∧ jsizeArr xs' ≤ F := by
              simp only [jsize, jsizeArr] at hf
              have h1 : jsize x ≤ Nat.max (jsize x) (jsizeArr xs') :=
                Nat.le_max_left _ _
              have h2 : jsizeArr xs' ≤ Nat.max (jsize x) (jsizeArr xs') :=
                Nat.le_max_right _ _
              omega
            have hx1 := IHb.1 x hszs.1 F (tailRender xs' ++ ']' :: rest) hfa.1
              (noDigitHead_tailRender xs' rest)
            have hx2 := IHb.2.1 xs' hszs.2 F rest hfa.2
            obtain ⟨c, cs, hxc, hcne⟩ := renderChars_head_ne_rbracket x
            have hshape : Json.renderChars (.arr (x :: xs')) ++ rest =
                '[' :: (x.renderChars ++ (tailRender xs' ++ ']' :: rest)) := by
              rw [show Json.renderChars (.arr (x :: xs')) =
                '[' :: (Json.renderList (x :: xs') ++ [']']) from rfl,
                renderList_eq_tail]
              simp [List.append_assoc]
            rw [hshape, parseVal_arr_step]
            have hhd : (x.renderChars ++ (tailRender xs' ++ ']' :: rest)).head? =
                some c := by
              rw [hxc]
              rfl
            rw [hhd, if_neg (fun hh => hcne (Option.some.inj hh)), hx1]
            dsimp only
            rw [hx2]
      | obj ms =>
        cases ms with
        | nil =>
          cases fuel with
          | zero => simp [jsize, jsizeObj] at hf
          | succ F => rfl
        | cons mm ms' =>
          cases mm with
          | mk k j =>
            cases fuel with
            | zero =>
              simp only [jsize] at hf
              have := jsizeObj_pos ((k, j) :: ms')
              omega
            | succ F =>
              have hN1 : 1 ≤ N := by
                simp at hsz
                omega
              have IHb := IH (N - 1) (by omega)
              have hszs : sizeOf j ≤ N - 1 ∧ sizeOf ms' ≤ N - 1 := by
                simp at hsz
                omega
              have hfa : jsize j + 1 ≤ F ∧ jsizeObj ms' ≤ F := by
                simp only [jsize, jsizeObj] at hf
                have h1 : jsize j ≤ Nat.max (jsize j) (jsizeObj ms') :=
                  Nat.le_max_left _ _
                have h2 : jsizeObj ms' ≤ Nat.max (jsize j) (jsizeObj ms') :=
                  Nat.le_max_right _ _
                omega
              have hm := IHb.2.2.2 k j hszs.1 F (tailRenderObj ms' ++ '}' :: rest)
                hfa.1 (noDigitHead_tailRenderObj ms' rest)
              have hms := IHb.2.2.1 ms' hszs.2 F rest hfa.2
              have hshape : Json.renderChars (.obj ((k, j) :: ms')) ++ rest =
                  '{' :: (memberRender k j ++ (tailRenderObj ms' ++ '}' :: rest)) := by
                rw [show Json.renderChars (.obj ((k, j) :: ms')) =
                  '{' :: (Json.renderFields ((k, j) :: ms') ++ ['}']) from rfl,
                  renderFields_eq_tail]
                simp [List.append_assoc]
              rw [hshape, parseVal_obj_step]
              have hhd : (memberRender k j ++
                  (tailRenderObj ms' ++ '}' :: rest)).head? = some '"' := by
                rw [memberRender]
                rfl
              rw [hhd, if_neg (by decide), hm]
              dsimp only
              rw [hms]
    have P4 : ∀ (k : String) (j : Json), sizeOf j ≤ N →
        ∀ (fuel : Nat) (rest : List Char),
        jsize j + 1 ≤ fuel → noDigitHead rest = true →
        parseMember fuel (memberRender k j ++ rest) = some ((k, j), rest) := by
      intro k j hszj fuel rest hf hrest
      cases fuel with
      | zero => omega
      | succ F =>
        have hj := P1 j hszj F rest (by omega) hrest
        rw [show memberRender k j ++ rest =
          '"' :: (escapeChars k.data ++ '"' :: (':' :: (j.renderChars ++ rest))) from by
            simp [memberRender]]
        rw [parseMember_step, parseStrBody_escape]
        show (parseVal F (j.renderChars ++ rest)).map
          (fun p => ((⟨k.data⟩, p.1), p.2)) = some ((k, j), rest)
        rw [hj]
        cases k with
        | mk kd => rfl
    have P2 : ∀ xs : List Json, sizeOf xs ≤ N → ∀ (fuel : Nat) (rest : List Char),
        jsizeArr xs ≤ fuel →
        parseArrTail fuel (tailRender xs ++ ']' :: rest) = some (xs, rest) := by
      intro xs
      induction xs with
      | nil =>
        intro _ fuel rest hf
        cases fuel with
        | zero => simp [jsizeArr] at hf
        | succ F => rfl
      | cons y ys ih =>
        intro hsz fuel rest hf
        cases fuel with
        | zero =>
          simp only [jsizeArr] at hf
          omega
        | succ F =>
          have hszy : sizeOf y ≤ N ∧ sizeOf ys ≤ N := by
            simp at hsz
            omega
          have hfa : jsize y ≤ F ∧ jsizeArr ys ≤ F := by
            simp only [jsizeArr] at hf
            have h1 : jsize y ≤ Nat.max (jsize y) (jsizeArr ys) :=
              Nat.le_max_left _ _
            have h2 : jsizeArr ys ≤ Nat.max (jsize y) (jsizeArr ys) :=
              Nat.le_max_right _ _
            omega
          have hy := P1 y hszy.1 F (tailRender ys ++ ']' :: rest) hfa.1
            (noDigitHead_tailRender ys rest)
          have hys := ih hszy.2 F rest hfa.2
          rw [show tailRender (y :: ys) ++ ']' :: rest =
            ',' :: (y.renderChars ++ (tailRender ys ++ ']' :: rest)) from by
              rw [show tailRender (y :: ys) =
                ',' :: (y.renderChars ++ tailRender ys) from rfl]
              simp [List.append_assoc]]
          rw [parseArrTail_comma, hy]
          dsimp only
          rw [hys]
    have P3 : ∀ ms : List (String × Json), sizeOf ms ≤ N →
        ∀ (fuel : Nat) (rest : List Char), jsizeObj ms ≤ fuel →
        parseObjTail fuel (tailRenderObj ms ++ '}' :: rest) = some (ms, rest) := by
      intro ms
      induction ms with
      | nil =>
        intro _ fuel rest hf
        cases fuel with
        | zero => simp [jsizeObj] at hf
        | succ F => rfl
      | cons mm ms' ih =>
        intro hsz fuel rest hf
        cases mm with
        | mk k j =>
          cases fuel with
          | zero =>
            simp only [jsizeObj] at hf
            omega
          | succ F =>
            have hszy : sizeOf j ≤ N ∧ sizeOf ms' ≤ N := by
              simp at hsz
              omega
            have hfa : jsize j + 1 ≤ F ∧ jsizeObj ms' ≤ F := by
              simp only [jsizeObj] at hf
              have h1 : jsize j ≤ Nat.max (jsize j) (jsizeObj ms') :=
                Nat.le_max_left _ _
              have h2 : jsizeObj ms' ≤ Nat.max (jsize j) (jsizeObj ms') :=
                Nat.le_max_right _ _
              omega
            have hmem := P4 k j hszy.1 F (tailRenderObj ms' ++ '}' :: rest) hfa.1
              (noDigitHead_tailRenderObj ms' rest)
            have hms := ih hszy.2 F rest hfa.2
            rw [show tailRenderObj ((k, j) :: ms') ++ '}' :: rest =
              ',' :: (memberRender k j ++ (tailRenderObj ms' ++ '}' :: rest)) from by
                rw [show tailRenderObj ((k, j) :: ms') =
                  ',' :: (memberRender k j ++ tailRenderObj ms') from rfl]
                simp [List.append_assoc]]
            rw [parseObjTail_comma, hmem]
            dsimp only
            rw [hms]
    exact ⟨P1, P2, P3, P4⟩

/-- The depth needed to parse a rendered document is bounded by its
rendered length plus one, so `Json.parse`'s fuel always suffices. -/
theorem jsize_le_render_bundle : ∀ N : Nat,
    (∀ j : Json, sizeOf j ≤ N → jsize j ≤ (Json.renderChars j).length + 1) ∧
    (∀ xs : List Json, sizeOf xs ≤ N → jsizeArr xs ≤ (tailRender xs).length + 1) ∧
    (∀ ms : List (String × Json), sizeOf ms ≤ N →
      jsizeObj ms ≤ (tailRenderObj ms).length + 1) := by
  intro N
  induction N using Nat.strong_induction_on with
  | _ N IH =>
    have P1 : ∀ j : Json, sizeOf j ≤ N →
        jsize j ≤ (Json.renderChars j).length + 1 := by
      intro j hsz
      cases j with
      | null => simp [jsize, Json.renderChars]
      | bool b => cases b <;> simp [jsize, Json.renderChars]
      | num n => simp [jsize]
      | str s => simp [jsize]
      | arr xs =>
        cases xs with
        | nil => simp [jsize, jsizeArr, Json.renderChars, Json.renderList]
        | cons x xs' =>
          have hN1 : 1 ≤ N := by
            simp at hsz
            omega
          have IHb := IH (N - 1) (by omega)
          have hszs : sizeOf x ≤ N - 1 ∧ sizeOf xs' ≤ N - 1 := by
            simp at hsz
            omega
          have hx := IHb.1 x hszs.1
          have hxs := IHb.2.1 xs' hszs.2
          rw [show Json.renderChars (.arr (x :: xs')) =
            '[' :: (Json.renderList (x :: xs') ++ [']']) from rfl,
            renderList_eq_tail]
          simp only [jsize, jsizeArr, List.length_cons, List.length_append,
            List.length_singleton]
          have hm : Nat.max (jsize x) (jsizeArr xs') ≤
              x.renderChars.length + (tailRender xs').length + 1 := by
            rw [Nat.max_le]
            omega
          omega
      | obj ms =>
        cases ms with
        | nil => simp [jsize, jsizeObj, Json.renderChars, Json.renderFields]
        | cons mm ms' =>
          cases mm with
          | mk k j =>
            have hN1 : 1 ≤ N := by
              simp at hsz
              omega
            have IHb := IH (N - 1) (by omega)
            have hszs : sizeOf j ≤ N - 1 ∧ sizeOf ms' ≤ N - 1 := by
              simp at hsz
              omega
            have hj := IHb.1 j hszs.1
            have hms := IHb.2.2 ms' hszs.2
            rw [show Json.renderChars (.obj ((k, j) :: ms')) =
              '{' :: (Json.renderFields ((k, j) :: ms') ++ ['}']) from rfl,
              renderFields_eq_tail]
            simp only [jsize, jsizeObj, memberRender, List.length_cons,
              List.length_append, List.length_singleton]
            have hm : Nat.max (jsize j) (jsizeObj ms') ≤
                j.renderChars.length + (tailRenderObj ms').length + 1 := by
              rw [Nat.max_le]
              omega
            omega
    refine ⟨P1, ?_, ?_⟩
    · intro xs hsz
      cases xs with
      | nil => simp [jsizeArr, tailRender]
      | cons y ys =>
        have hN1 : 1 ≤ N := by
          simp at hsz
          omega
        have IHb := IH (N - 1) (by omega)
        have hszs : sizeOf y ≤ N - 1 ∧ sizeOf ys ≤ N - 1 := by
          simp at hsz
          omega
        have hy := IHb.1 y hszs.1
        have hys := IHb.2.1 ys hszs.2
        rw [show tailRender (y :: ys) =
          ',' :: (y.renderChars ++ tailRender ys) from rfl]
        simp only [jsizeArr, List.length_cons, List.length_append]
        have hm : Nat.max (jsize y) (jsizeArr ys) ≤
            y.renderChars.length + (tailRender ys).length + 1 := by
          rw [Nat.max_le]
          omega
        omega
    · intro ms hsz
      cases ms with
      | nil => simp [jsizeObj, tailRenderObj]
      | cons mm ms' =>
        cases mm with
        | mk k j =>
          have hN1 : 1 ≤ N := by
            simp at hsz
            omega
          have IHb := IH (N - 1) (by omega)
          have hszs : sizeOf j ≤ N - 1 ∧ sizeOf ms' ≤ N - 1 := by
            simp at hsz
            omega
          have hj := IHb.1 j hszs.1
          have hms := IHb.2.2 ms' hszs.2
          rw [show tailRenderObj ((k, j) :: ms') =
            ',' :: (memberRender k j ++ tailRenderObj ms') from rfl]
          simp only [jsizeObj, memberRender, List.length_cons, List.length_append]
          have hm : Nat.max (jsize j) (jsizeObj ms') ≤
              j.renderChars.length + (tailRenderObj ms').length + 1 := by
            rw [Nat.max_le]
            omega
          omega

/-- `JSON.parse` inverts `JSON.stringify` on every document. -/
theorem json_parse_render (j : Json) : Json.parse (Json.render j) = some j := by
  have hb := (jsize_le_render_bundle (sizeOf j)).1 j le_rfl
  have hp := (render_parse_bundle (sizeOf j)).1 j le_rfl
    ((Json.renderChars j).length + 1) [] hb rfl
  rw [List.append_nil] at hp
  rw [show Json.parse (Json.render j) =
    (match parseVal ((Json.renderChars j).length + 1) (Json.renderChars j) with
     | some (v, []) => some v
     | _ => none) from rfl]
  rw [hp]

/-- Decoding one field inverts `parseToString` at the declared type. -/
theorem parseField_roundtrip (fs : FieldSpec) (t : Ty) (v : Value)
    (ht : fs.type = some t) (hm : typeMatches t v = true) :
    objValidate.parseField (some fs) (objValidate.parseToString v) = .ok v := by
  cases t with
  | string =>
    cases v <;> simp [typeMatches] at hm
    simp [objValidate.parseField, objValidate.parseToString, ht]
  | number =>
    cases v <;> simp [typeMatches] at hm
    rename_i n
    have hpi := parseInt_intChars n [] rfl
    rw [List.append_nil] at hpi
    simp [objValidate.parseField, objValidate.parseToString, ht, hpi]
  | boolean =>
    cases v <;> simp [typeMatches] at hm
    rename_i b
    cases b <;> simp [objValidate.parseField, objValidate.parseToString, ht]
  | object =>
    cases v <;> simp [typeMatches] at hm
    rename_i j
    simp [objValidate.parseField, objValidate.parseToString, ht,
      json_parse_render j]

/-- Claim C3: for every schema-valid record, encoding each field with
`parseToString` and decoding the resulting string map with
`parseFromString` under the same schema yields the original record,
across all four field types. -/
theorem parse_to_from_roundtrip (schema : List (String × FieldSpec)) :
    ∀ rec : Record, RecordValid schema rec →
      objValidate.parseFromString schema
        (rec.map (fun p => (p.1, objValidate.parseToString p.2))) = .ok rec := by
  intro rec
  induction rec with
  | nil => intro _; rfl
  | cons p rest ih =>
    intro hv
    cases p with
    | mk k v =>
      obtain ⟨fs, t, hget, ht, hm⟩ := hv (k, v) (List.mem_cons_self _ _)
      simp only [List.map_cons, objValidate.parseFromString]
      rw [hget, parseField_roundtrip fs t v ht hm]
      rw [ih (fun q hq => hv q (List.mem_cons_of_mem _ hq))]

/-- Witness for C3: a concrete record with one field of each of the
four types survives the wire round-trip. -/
theorem parse_to_from_roundtrip_witness :
    RecordValid rtSchema rtRec ∧
    objValidate.parseFromString rtSchema
      (rtRec.map (fun p => (p.1, objValidate.parseToString p.2))) = .ok rtRec := by
  have hvalid : RecordValid rtSchema rtRec := by
    intro p hp
    simp only [rtRec, List.mem_cons, List.not_mem_nil, or_false] at hp
    rcases hp with rfl | rfl | rfl | rfl
    · exact ⟨_, .string, rfl, rfl, rfl⟩
    · exact ⟨_, .number, rfl, rfl, rfl⟩
    · exact ⟨_, .boolean, rfl, rfl, rfl⟩
    · exact ⟨_, .object, rfl, rfl, rfl⟩
  exact ⟨hvalid, parse_to_from_roundtrip rtSchema rtRec hvalid⟩

/-- Witness for C10: a store with two persisted entries still yields
the empty list for `listDetail({})`. -/
theorem listDetail_empty_options_yields_nothing_witness :
    Table.listDetailOpts [] "" simpleStore 10 SimpleM [] =
      some (.ok [], .optsV []) ∧ (simpleStore.smembers "User").length = 2 :=
  ⟨by
    have hgoal : Table.listDetailOpts [] "" simpleStore 10 SimpleM [] =
        some (.ok [], .optsV []) := rfl
    have := listDetail_empty_options_yields_nothing [] "" simpleStore 10 SimpleM
      [] (.optsV []) hgoal
    exact hgoal, rfl⟩

end ModelRedis
